import Mathlib

/-!
Verification of the qsp planning tool core: the schedule time-reflow model
(`src/assets/js/components/schedule.js`), the generic list move operation
(checklist module, `Model.moveToIndex`), and the component-content storage
layer (`core/storage.js`).

The JavaScript source is shallowly embedded: every function below mirrors one
source function; machine arithmetic is plain `Nat`/`Int` with explicit
wrap-around, JSON values are an inductive type, and `localStorage` is an
association list from keys to parsed JSON values.
-/

/- ================================
   Time utilities (schedule.js)
   ================================ -/

/-- Characters accepted by the `\s` class of the source regexes, restricted to
the ASCII whitespace actually reachable from `<input type="time">` values. -/
def isJsSpace (c : Char) : Bool :=
  c = ' ' || c = '\t' || c = '\n' || c = '\r' || c = '\x0b' || c = '\x0c'

/-- The regex `/^\s*(\d{2}):(\d{2})\s*$/` of `toMinutes`: optional surrounding
whitespace, two digits, a colon, two digits.  Returns the two captured
numbers. -/
def parseHHMM (s : String) : Option (Nat × Nat) :=
  let core := ((s.data.dropWhile isJsSpace).reverse.dropWhile isJsSpace).reverse
  match core with
  | [h1, h2, c, m1, m2] =>
      if h1.isDigit && h2.isDigit && c = ':' && m1.isDigit && m2.isDigit then
        some (10 * (h1.toNat - 48) + (h2.toNat - 48), 10 * (m1.toNat - 48) + (m2.toNat - 48))
      else none
  | _ => none

/-- The strict shape regex `/^\d{2}:\d{2}$/` used by `Model.getAll` and
`Model.updateTime` (no surrounding whitespace allowed). -/
def isHHMMShape (s : String) : Bool :=
  match s.data with
  | [h1, h2, c, m1, m2] => h1.isDigit && h2.isDigit && c = ':' && m1.isDigit && m2.isDigit
  | _ => false

/-- `toMinutes`: converts `"HH:MM"` to minutes, clamping hours to `0..23` and
minutes to `0..59`; an unparsable string counts as `00:00`.  The source's
`Math.max(0, ...)` guards are identities here because captured digits are
already non-negative. -/
def toMinutes (hhmm : String) : Nat :=
  match parseHHMM hhmm with
  | some (h, m) => min 23 h * 60 + min 59 m
  | none => 0

/-- `String(x).padStart(2, "0")` as applied to the two-digit components of a
time. -/
def pad2 (n : Nat) : String :=
  if n < 10 then "0" ++ toString n else toString n

/-- `fromMinutes`: normalizes to `[0, 1439]` and formats as `"HH:MM"`. -/
def fromMinutes (minutes : Int) : String :=
  let total := ((minutes % 1440) + 1440) % 1440
  let t := total.toNat
  pad2 (t / 60) ++ ":" ++ pad2 (t % 60)

/-- `diffForward`: forward difference `b - a` in minutes, wrapping over 24h. -/
def diffForward (a b : String) : Int :=
  let am : Int := toMinutes a
  let bm : Int := toMinutes b
  let d := bm - am
  if 0 ≤ d then d else d + 1440

/-- `addMinutes`: adds minutes to an `"HH:MM"` string with 24h wrap. -/
def addMinutes (hhmm : String) (minutes : Int) : String :=
  fromMinutes ((toMinutes hhmm : Int) + minutes)

/-- `String.prototype.trim()`, restricted to the same ASCII whitespace as
`isJsSpace`. -/
def jsTrim (s : String) : String :=
  String.mk (((s.data.dropWhile isJsSpace).reverse.dropWhile isJsSpace).reverse)

/- ================================
   JSON values (the domain of parsed localStorage / component content)
   ================================ -/

/-- Parsed JSON values.  Numbers are restricted to the integers, which covers
every number the embedded code produces (`position` counters). -/
inductive Json where
  | null : Json
  | bool (b : Bool) : Json
  | num (n : Int) : Json
  | str (s : String) : Json
  | arr (elems : List Json) : Json
  | obj (fields : List (String × Json)) : Json

namespace Json

/-- First-occurrence field lookup.  Objects produced by `JSON.parse` have
unique keys, so first-occurrence semantics agrees with JavaScript as long as
reads and writes below both use it. -/
def getField : List (String × Json) → String → Option Json
  | [], _ => none
  | (k, v) :: rest, f => if k = f then some v else getField rest f

/-- JavaScript property assignment `o[f] = v` on an object: replaces the first
binding of `f`, or appends a fresh binding when the key is absent. -/
def setField : List (String × Json) → String → Json → List (String × Json)
  | [], f, v => [(f, v)]
  | (k, w) :: rest, f, v =>
      if k = f then (k, v) :: rest else (k, w) :: setField rest f v

/-- Property read `j.f` where both a missing property (`undefined`) and an
explicit `null` are collapsed to `null`; the uses below (truthiness tests,
`?? null`, strict equality against a string) cannot distinguish the two. -/
def getProp (j : Json) (f : String) : Json :=
  match j with
  | .obj fields => (getField fields f).getD .null
  | _ => .null

/-- JavaScript truthiness of a parsed JSON value. -/
def truthy : Json → Bool
  | .null => false
  | .bool b => b
  | .num n => n != 0
  | .str s => s ≠ ""
  | .arr _ => true
  | .obj _ => true

end Json

mutual

/-- JavaScript string coercion of a parsed JSON value (`"" + j`); arrays
stringify as their elements joined by commas, with `null` elements rendered
empty. -/
def Json.toJsString : Json → String
  | .null => "null"
  | .bool b => if b then "true" else "false"
  | .num n => toString n
  | .str s => s
  | .arr xs => String.intercalate "," (Json.toJsStringElems xs)
  | .obj _ => "[object Object]"

/-- Element-wise stringification for `Json.toJsString` on arrays. -/
def Json.toJsStringElems : List Json → List String
  | [] => []
  | .null :: rest => "" :: Json.toJsStringElems rest
  | x :: rest => Json.toJsString x :: Json.toJsStringElems rest

end

namespace Json

/-- Strict equality `===` between two independently parsed JSON values:
structural on primitives, always false on arrays/objects because two parses
never yield the same reference. -/
def strictEq : Json → Json → Bool
  | .null, .null => true
  | .bool a, .bool b => a = b
  | .num a, .num b => a = b
  | .str a, .str b => a = b
  | _, _ => false

end Json

/- ================================
   Schedule model (schedule.js Model)
   ================================ -/

namespace Schedule

/-- Reserved id of the trailing "End" sentinel. -/
def END_ID : String := "__END__"

/-- Minimum required gap between the last activity and the sentinel. -/
def MIN_GAP_MINUTES : Nat := 15

/-- One normalized schedule item `{id, text, time}`. -/
structure ScheduleItem where
  id : String
  text : String
  time : String
  deriving DecidableEq, Repr

/-- Normalization applied by `Model.getAll` to one raw stored entry: skip
entries that are falsy or lack a string `id`; coerce `text` to a string;
replace a `time` that is not a string matching `/^\d{2}:\d{2}$/` by
`"08:00"`. -/
def normEntry (j : Json) : Option ScheduleItem :=
  match j with
  | .obj fields =>
      match Json.getField fields "id" with
      | some (.str id) =>
          let text := match Json.getField fields "text" with
            | some (.str t) => t
            | _ => ""
          let time := match Json.getField fields "time" with
            | some (.str t) => if isHHMMShape t then t else "08:00"
            | _ => "08:00"
          some { id := id, text := text, time := time }
      | _ => none
  | _ => none

/-- The sentinel record `getAll` builds when it encounters an `END_ID` entry:
`{ id: END_ID, text: text || "End", time: time || "23:59" }`. -/
def endify (it : ScheduleItem) : ScheduleItem :=
  { id := END_ID
    text := if it.text = "" then "End" else it.text
    time := if it.time = "" then "23:59" else it.time }

/-- The loop body of `Model.getAll`: accumulates ordinary activities in order
and keeps the sentinel built from the last `END_ID` entry. -/
def getAllAux : List Json → List ScheduleItem × Option ScheduleItem
  | [] => ([], none)
  | j :: rest =>
      let tail := getAllAux rest
      match normEntry j with
      | none => tail
      | some it =>
          if it.id = END_ID then (tail.1, some (tail.2.getD (endify it)))
          else (it :: tail.1, tail.2)

/-- `Model.getAll`: reads the component content, coerces a non-array to `[]`,
normalizes every entry, and appends the sentinel (if any) at the end. -/
def getAll (content : Json) : List ScheduleItem :=
  let arrElems := match content with
    | .arr xs => xs
    | _ => []
  match getAllAux arrElems with
  | (normal, some endItem) => normal ++ [endItem]
  | (normal, none) => normal

/-- The record `{id, text, time}` that `Model._write` persists per item. -/
def encodeItem (it : ScheduleItem) : Json :=
  .obj [("id", .str it.id), ("text", .str it.text), ("time", .str it.time)]

/-- `Model._write`: the component content written to storage. -/
def encodeItems (items : List ScheduleItem) : Json :=
  .arr (items.map encodeItem)

/-- `Model.add`: appends an activity.  The fresh id produced by `uid()` is an
explicit argument `newId`.  Returns the component content after the call
(unchanged when the trimmed text is empty). -/
def add (content : Json) (newId : String) (text : String) (time : String) : Json :=
  let t := jsTrim text
  if t = "" then content
  else
    let items := getAll content
    let hasEnd := items.any fun i => i.id = END_ID
    let activities := items.filter fun i => i.id ≠ END_ID
    if activities.length = 0 ∧ ¬hasEnd then
      let endTime := addMinutes time 60
      encodeItems [{ id := newId, text := t, time := time },
                   { id := END_ID, text := "End", time := endTime }]
    else
      let endItem := items.find? fun i => i.id = END_ID
      let others := items.filter fun i => i.id ≠ END_ID
      let newTime := match endItem with
        | some e => e.time
        | none => time
      let newItem : ScheduleItem := { id := newId, text := t, time := newTime }
      let updatedEnd := match endItem with
        | some e => { e with time := addMinutes e.time 60 }
        | none => ({ id := END_ID, text := "End", time := addMinutes newTime 60 } : ScheduleItem)
      encodeItems (others ++ [newItem, updatedEnd])

/-- `Model._stableSortByTime`: the comparator `(a, b) => ta - tb || a.idx - b.idx`
is a total order on the index-tagged activities, so the JavaScript sort result
is the unique order ascending by `(toMinutes time, original index)`; `mergeSort`
with the corresponding boolean `≤` computes exactly that order. -/
def sortKeyLE (a b : Nat × ScheduleItem) : Bool :=
  toMinutes a.2.time < toMinutes b.2.time ||
    (toMinutes a.2.time = toMinutes b.2.time && a.1 ≤ b.1)

/-- The order induced by the source comparator, as a decidable relation.  It
is total and transitive, so the sort result is the unique enumeration of the
tagged activities ascending in this order, whatever sorting algorithm the
JavaScript engine uses. -/
def sortKeyRel (a b : Nat × ScheduleItem) : Prop := sortKeyLE a b = true

instance : DecidableRel sortKeyRel := fun a b => by
  unfold sortKeyRel
  infer_instance

/-- The index-tagged sorted list (`withIndex` in the source). -/
def stableSortTagged (activities : List ScheduleItem) : List (Nat × ScheduleItem) :=
  List.insertionSort sortKeyRel activities.enum

/-- `Model._stableSortByTime`. -/
def stableSortByTime (activities : List ScheduleItem) : List ScheduleItem :=
  (stableSortTagged activities).map Prod.snd

/-- `Model._enforceEndAfterLast`: pushes the sentinel time to 15 minutes after
the last activity when the forward gap is smaller. -/
def enforceEndAfterLast (endTime : String) (activitiesSorted : List ScheduleItem) : String :=
  match activitiesSorted.getLast? with
  | none => endTime
  | some last =>
      let gap := diffForward last.time endTime
      if gap < (MIN_GAP_MINUTES : Int) then addMinutes last.time MIN_GAP_MINUTES
      else endTime

/-- `Model.updateTime`: validates the `\d{2}:\d{2}` shape (silently rejecting
other strings), applies the new time, re-sorts the activities, enforces the
sentinel gap, and persists.  Returns the component content after the call. -/
def updateTime (content : Json) (id : String) (time : String) : Json :=
  if ¬(isHHMMShape time) then content
  else
    let current := getAll content
    let mapped := current.map fun i => if i.id = id then { i with time := time } else i
    let endItem := mapped.find? fun i => i.id = END_ID
    let activities := mapped.filter fun i => i.id ≠ END_ID
    let sorted := stableSortByTime activities
    let nextEndTime := enforceEndAfterLast
      (match endItem with | some e => e.time | none => "23:59") sorted
    let endFinal := match endItem with
      | some e => { e with time := nextEndTime }
      | none => ({ id := END_ID, text := "End", time := nextEndTime } : ScheduleItem)
    encodeItems (sorted ++ [endFinal])

/-- `findIndex` on the activity list. -/
def findIndex (p : ScheduleItem → Bool) : List ScheduleItem → Option Nat
  | [] => none
  | x :: xs => if p x then some 0 else (findIndex p xs).map (· + 1)

/-- The duration table of `moveToIndexWithReflow`: each pre-move activity's
forward distance to the next pre-move start (the sentinel's time — defaulting
to `"23:59"` — closes the last one).  Later entries overwrite earlier ones as
JavaScript object assignment does; `durLookup` reads the table. -/
def durTable (acts : List ScheduleItem) (endTime : String) : List (String × Int) :=
  (List.range acts.length).filterMap fun i =>
    match acts[i]? with
    | some cur =>
        let nextStart := match acts[i + 1]? with
          | some nxt => nxt.time
          | none => endTime
        some (cur.id, diffForward cur.time nextStart)
    | none => none

/-- `durations[id] ?? 0` with JavaScript last-assignment-wins semantics. -/
def durLookup (table : List (String × Int)) (id : String) : Int :=
  match table.reverse.find? (fun p => p.1 = id) with
  | some p => p.2
  | none => 0

/-- The reflow loop: assigns the cursor to each activity in the new order and
advances it by that activity's pre-move duration; returns the reflowed
activities and the final cursor (the new sentinel time). -/
def reflowWalk (dur : String → Int) : List ScheduleItem → String → List ScheduleItem × String
  | [], cursor => ([], cursor)
  | it :: rest, cursor =>
      let next := reflowWalk dur rest (addMinutes cursor (dur it.id))
      ({ it with time := cursor } :: next.1, next.2)

/-- `Model.moveToIndexWithReflow`: reorders an activity (clamping the target
index and adjusting it after extraction), then recomputes all start times from
the old first activity's time using each activity's pre-move duration, and
finally moves the sentinel to the cursor after the last activity. -/
def moveToIndexWithReflow (content : Json) (draggedId : String) (toIndex : Int) : Json :=
  let beforeAll := getAll content
  let beforeActivities := beforeAll.filter fun i => i.id ≠ END_ID
  let endBefore := beforeAll.find? fun i => i.id = END_ID
  if beforeActivities.length ≤ 1 then content
  else
    match findIndex (fun i => i.id = draggedId) beforeActivities,
          beforeActivities.head? with
    | some idxDraggedBefore, some firstBefore =>
        let endTimeBefore := match endBefore with
          | some e => e.time
          | none => "23:59"
        let durations := durTable beforeActivities endTimeBefore
        let dest := (max 0 (min (beforeActivities.length : Int) toIndex)).toNat
        let moved := beforeActivities[idxDraggedBefore]?
        match moved with
        | none => content
        | some movedItem =>
            let removed := beforeActivities.eraseIdx idxDraggedBefore
            let dest' := if dest > idxDraggedBefore then dest - 1 else dest
            let activitiesAfter := removed.insertIdx dest' movedItem
            -- The source's `wasFirst` branch assigns the same anchor value
            -- (`firstBefore.time`) as the default, so the anchor is always the
            -- old first activity's start time.
            let anchorTime := firstBefore.time
            let walked := reflowWalk (durLookup durations) activitiesAfter anchorTime
            let endAfter := match endBefore with
              | some e => { e with time := walked.2 }
              | none => ({ id := END_ID, text := "End", time := walked.2 } : ScheduleItem)
            encodeItems (walked.1 ++ [endAfter])
    | _, _ => content

end Schedule

/- ================================
   Generic list model (checklist module, Model.moveToIndex)
   ================================ -/

namespace GenericList

/-- An item of the shared list CRUD contract; only `id` matters to `moveToIndex`. -/
structure GItem where
  id : String
  text : String
  checked : Bool
  deriving DecidableEq, Repr

/-- `findIndex` over generic items. -/
def findIndex (p : GItem → Bool) : List GItem → Option Nat
  | [] => none
  | x :: xs => if p x then some 0 else (findIndex p xs).map (· + 1)

/-- The clamped destination `Math.max(0, Math.min(len, Number(toIndex)))`. -/
def clampDest (len : Nat) (toIndex : Int) : Nat :=
  (max 0 (min (len : Int) toIndex)).toNat

/-- `Model.moveToIndex` of the checklist module, acting on the item list read
from storage: no-op for lists of length ≤ 1, for an unknown id, and when the
clamped destination equals the item's index or the index right after it;
otherwise the item is spliced out and reinserted (destination reduced by one
when it lay past the removal point). -/
def moveToIndex (items : List GItem) (id : String) (toIndex : Int) : List GItem :=
  let len := items.length
  if len ≤ 1 then items
  else
    match findIndex (fun i => i.id = id) items with
    | none => items
    | some fromIdx =>
        match items[fromIdx]? with
        | none => items
        | some moved =>
            let dest := clampDest len toIndex
            if dest = fromIdx ∨ dest = fromIdx + 1 then items
            else
              let arr := items.eraseIdx fromIdx
              let dest' := if dest > fromIdx then dest - 1 else dest
              arr.insertIdx dest' moved

end GenericList

/- ================================
   Storage layer (core/storage.js)
   ================================ -/

namespace Storage

/-- In-place update of the element at one index, leaving the list unchanged
when the index is out of range (`xs[i] = f(xs[i])`). -/
def modifyAt (xs : List Json) (idx : Nat) (f : Json → Json) : List Json :=
  match xs, idx with
  | [], _ => []
  | x :: rest, 0 => f x :: rest
  | x :: rest, i + 1 => x :: modifyAt rest i f

/-- `localStorage`, abstracted over JSON serialization: a key either is absent
or holds a parsed JSON value.  `JSON.parse ∘ JSON.stringify` is the identity
on this domain, so `deepClone` is the identity as well. -/
def Store := List (String × Json)

/-- `localStorage.getItem` followed by `JSON.parse` (first binding wins; keys
are unique in every store the module writes). -/
def storeGet (st : Store) (key : String) : Option Json :=
  match st with
  | [] => none
  | (k, v) :: rest => if k = key then some v else storeGet rest key

/-- `localStorage.setItem key (JSON.stringify v)`. -/
def storeSet (st : Store) (key : String) (v : Json) : Store :=
  match st with
  | [] => [(key, v)]
  | (k, w) :: rest => if k = key then (k, v) :: rest else (k, w) :: storeSet rest key v

/-- `deepClone(obj) = JSON.parse(JSON.stringify(obj))`, the identity on parsed
JSON values. -/
def deepClone (j : Json) : Json := j

/-- Storage key of a project document. -/
def keyForProject (id : Json) : String := "project:" ++ id.toJsString

/-- `readActiveProject`: the parsed `"activeProject"` entry, or `{id: null}`
when absent. -/
def readActiveProject (st : Store) : Json :=
  match storeGet st "activeProject" with
  | none => .obj [("id", .null)]
  | some j => j

/-- `getActiveProjectId`: `readActiveProject(...)?.id ?? null`. -/
def getActiveProjectId (st : Store) : Json :=
  (readActiveProject st).getProp "id"

/-- `readActiveProjectModelOrNull`: the active id and the parsed project
document, or `none` when there is no truthy active id or no stored document. -/
def readActiveProjectModelOrNull (st : Store) : Option (Json × Json) :=
  let id := getActiveProjectId st
  if ¬(id.truthy) then none
  else
    match storeGet st (keyForProject id) with
    | none => none
    | some model => some (id, model)

/-- `componentName.charAt(0).toUpperCase() + componentName.slice(1)`. -/
def capitalizeName (s : String) : String :=
  match s.data with
  | [] => ""
  | c :: rest => String.mk (c.toUpper :: rest)

/-- Does `c && c.name === componentName` hold for one entry of
`root.components`? -/
def compMatches (componentName : String) (c : Json) : Bool :=
  match c with
  | .obj fields =>
      match Json.getField fields "name" with
      | some (.str n) => n = componentName
      | _ => false
  | _ => false

/-- `findIndex` over JSON component entries. -/
def findCompIndex (componentName : String) : List Json → Option Nat
  | [] => none
  | c :: rest =>
      if compMatches componentName c then some 0
      else (findCompIndex componentName rest).map (· + 1)

/-- The fresh component entry pushed by `ensureProjectComponent`. -/
def newComponent (componentName : String) (position : Nat) : Json :=
  .obj [("name", .str componentName), ("title", .str (capitalizeName componentName)),
        ("content", .arr []), ("mounted", .bool false), ("position", .num position)]

/-- `if (!("content" in comp) || comp.content == null) comp.content = []` on
one component entry.  A non-object entry is returned unchanged: the entry this
is applied to is always an object (found by `compMatches` or freshly pushed),
so that branch is unreachable (the source would throw there). -/
def contentNormalizer (c : Json) : Json :=
  match c with
  | .obj fields =>
      match Json.getField fields "content" with
      | none => .obj (Json.setField fields "content" (.arr []))
      | some .null => .obj (Json.setField fields "content" (.arr []))
      | some _ => .obj fields
  | other => other

/-- The content-default rule applied to the entry at `idx`. -/
def normalizeContentAt (comps : List Json) (idx : Nat) : List Json :=
  modifyAt comps idx contentNormalizer

/-- `comp.content = v` on one component entry (always an object in practice,
as above). -/
def contentSetter (v : Json) (c : Json) : Json :=
  match c with
  | .obj comp => .obj (Json.setField comp "content" v)
  | other => other

/-- `ensureProjectComponent(root, componentName)`: requires an object document
(in strict-mode JavaScript, creating `root.components` on a primitive throws a
`TypeError`; an array document would accept the assignment only to lose it at
`JSON.stringify`, which we also model as the error case).  Coerces a missing
or non-array `components` to `[]`, finds or appends the named component entry,
defaults its `content` to `[]`, and returns the updated document with the
entry's index. -/
def ensureProjectComponent (root : Json) (componentName : String) :
    Except String (Json × Nat) :=
  match root with
  | .obj fields =>
      let comps := match Json.getField fields "components" with
        | some (.arr xs) => xs
        | _ => []
      match findCompIndex componentName comps with
      | some idx =>
          let comps2 := normalizeContentAt comps idx
          .ok (.obj (Json.setField fields "components" (.arr comps2)), idx)
      | none =>
          let idx := comps.length
          let comps2 := normalizeContentAt (comps ++ [newComponent componentName (idx + 1)]) idx
          .ok (.obj (Json.setField fields "components" (.arr comps2)), idx)
  | _ => .error "TypeError: cannot create property on a non-object document"

/-- `root.components[idx].content` (after `ensureProjectComponent`). -/
def getContentAt (root : Json) (idx : Nat) : Json :=
  match root with
  | .obj fields =>
      match Json.getField fields "components" with
      | some (.arr xs) =>
          match xs[idx]? with
          | some (.obj comp) => (Json.getField comp "content").getD .null
          | _ => .null
      | _ => .null
  | _ => .null

/-- `root.components[idx].content = v` (after `ensureProjectComponent`). -/
def setContentAt (root : Json) (idx : Nat) (v : Json) : Json :=
  match root with
  | .obj fields =>
      match Json.getField fields "components" with
      | some (.arr xs) =>
          let xs2 := modifyAt xs idx (contentSetter v)
          .obj (Json.setField fields "components" (.arr xs2))
      | _ => .obj fields
  | other => other

/-- The `try { ... } catch {}` block of `setComponentContent` that mirrors
`updatedAt` into the `projectList` entry of the active project. -/
def syncProjectList (st : Store) (id : Json) (now : String) : Store :=
  match storeGet st "projectList" with
  | none => st
  | some pl =>
      match pl.getProp "projects" with
      | .arr ps =>
          match findCompIndexById id ps with
          | none => st
          | some i =>
              let ps2 := modifyAt ps i (fun p =>
                match p with
                | .obj fields => .obj (Json.setField fields "updatedAt" (.str now))
                | _ => .obj [("updatedAt", .str now)])
              storeSet st "projectList"
                (match pl with
                 | .obj plf => .obj (Json.setField plf "projects" (.arr ps2))
                 | other => other)
      | _ => st
where
  /-- `list.projects.findIndex((p) => p.id === id)`. -/
  findCompIndexById (id : Json) : List Json → Option Nat
    | [] => none
    | p :: rest =>
        if (p.getProp "id").strictEq id then some 0
        else (findCompIndexById id rest).map (· + 1)

/-- `getComponentContent(componentName)`: `null` when there is no active
project or no document; otherwise the (deep-cloned) content of the named
component entry.  The function performs no `setItem`, hence its read-only
type. -/
def getComponentContent (st : Store) (componentName : String) : Except String Json :=
  if componentName = "" then .error "[storage] missing componentName"
  else
    match readActiveProjectModelOrNull st with
    | none => .ok .null
    | some (_, model) =>
        match ensureProjectComponent model componentName with
        | .error e => .error e
        | .ok (root, idx) => .ok (deepClone (getContentAt root idx))

/-- `setComponentContent(componentName, content)`: throws without an active
project (before any write), otherwise replaces the component's content, bumps
`updatedAt` (the caller passes the clock value `now`), persists the document,
and mirrors `updatedAt` into the project list. -/
def setComponentContent (st : Store) (componentName : String) (content : Json)
    (now : String) : Except String Store :=
  if componentName = "" then .error "[storage] missing componentName"
  else
    match readActiveProjectModelOrNull st with
    | none => .error "[storage] cannot write: no active project"
    | some (id, model) =>
        match ensureProjectComponent model componentName with
        | .error e => .error e
        | .ok (root, idx) =>
            let root2 := setContentAt root idx (deepClone content)
            let root3 := match root2 with
              | .obj fields => Json.obj (Json.setField fields "updatedAt" (.str now))
              | other => other
            let st2 := storeSet st (keyForProject id) root3
            .ok (syncProjectList st2 id now)

end Storage

/- ================================
   Spec-side definitions, derived observables, and claim scenarios
   ================================ -/

/-- A time string within `[00:00, 23:59]`: the two-digit shape with hours at
most 23 and minutes at most 59. -/
def isValidHHMM (s : String) : Bool :=
  match s.data with
  | [h1, h2, c, m1, m2] =>
      h1.isDigit && h2.isDigit && c = ':' && m1.isDigit && m2.isDigit &&
        10 * (h1.toNat - 48) + (h2.toNat - 48) ≤ 23 &&
        10 * (m1.toNat - 48) + (m2.toNat - 48) ≤ 59
  | _ => false

/-- What `getAll` makes of one stored `{id, text, time}` record: the time is
kept when it matches `/^\d{2}:\d{2}$/` and replaced by `"08:00"` otherwise. -/
def Schedule.normStored (it : Schedule.ScheduleItem) : Schedule.ScheduleItem :=
  { it with time := if isHHMMShape it.time then it.time else "08:00" }

/-- The element list `getAll` iterates over: the stored array, or `[]` when the
stored content is not an array. -/
def Schedule.contentElems (content : Json) : List Json :=
  match content with
  | .arr xs => xs
  | _ => []

/-- Does a stored entry carry a `time` field that is a string matching the
`/^\d{2}:\d{2}$/` shape? -/
def Schedule.storedTimeShapeOk (j : Json) : Bool :=
  match j with
  | .obj fields =>
      match Json.getField fields "time" with
      | some (.str t) => isHHMMShape t
      | _ => false
  | _ => false

/-- The last ordinary activity of a schedule item list. -/
def Schedule.lastActivityOf (items : List Schedule.ScheduleItem) :
    Option Schedule.ScheduleItem :=
  (items.filter fun i => i.id ≠ Schedule.END_ID).getLast?

/-- The sentinel of a schedule item list. -/
def Schedule.sentinelOf (items : List Schedule.ScheduleItem) :
    Option Schedule.ScheduleItem :=
  items.find? fun i => i.id = Schedule.END_ID

instance : IsTotal (Nat × Schedule.ScheduleItem) Schedule.sortKeyRel :=
  ⟨fun a b => by
    unfold Schedule.sortKeyRel Schedule.sortKeyLE
    simp only [Bool.or_eq_true, Bool.and_eq_true, decide_eq_true_eq]
    omega⟩

instance : IsTrans (Nat × Schedule.ScheduleItem) Schedule.sortKeyRel :=
  ⟨fun a b c hab hbc => by
    unfold Schedule.sortKeyRel Schedule.sortKeyLE at hab hbc ⊢
    simp only [Bool.or_eq_true, Bool.and_eq_true, decide_eq_true_eq] at hab hbc ⊢
    omega⟩

/-- The stored schedule of the reflow scenario: activities `a`, `b`, `c` at
08:00/09:00/10:00 and the sentinel at 11:00. -/
def c1State : Json := Schedule.encodeItems
  [⟨"a", "Activity a", "08:00"⟩, ⟨"b", "Activity b", "09:00"⟩,
   ⟨"c", "Activity c", "10:00"⟩, ⟨Schedule.END_ID, "End", "11:00"⟩]

/-- A stored schedule whose second activity runs only 5 minutes before the
sentinel's slot: `a@08:00`, `b@08:05`, sentinel 09:00. -/
def c2State : Json := Schedule.encodeItems
  [⟨"a", "Activity a", "08:00"⟩, ⟨"b", "Activity b", "08:05"⟩,
   ⟨Schedule.END_ID, "End", "09:00"⟩]

/-- A stored schedule with one activity at 08:00 and the sentinel at 09:00. -/
def c3State : Json := Schedule.encodeItems
  [⟨"a", "Activity a", "08:00"⟩, ⟨Schedule.END_ID, "End", "09:00"⟩]

/-- The stored schedule of the stability scenario: activities `X`, `Y`, `Z`
with times 09:00/09:00/08:00 in insertion order, sentinel at 10:00. -/
def c8State : Json := Schedule.encodeItems
  [⟨"X", "Activity X", "09:00"⟩, ⟨"Y", "Activity Y", "09:00"⟩,
   ⟨"Z", "Activity Z", "08:00"⟩, ⟨Schedule.END_ID, "End", "10:00"⟩]

/-- A storage state with an active project `p1` whose document has an empty
component list. -/
def c6Store : Storage.Store :=
  [("activeProject", Json.obj [("id", Json.str "p1")]),
   ("project:p1", Json.obj [("title", Json.str "Plan"), ("components", Json.arr [])])]

/- ================================
   Theorems.  First the arithmetic facts about the time utilities.
   ================================ -/
theorem toMinutes_le (s : String) : toMinutes s ≤ 1439 := by
  unfold toMinutes
  cases parseHHMM s with
  | none => simp
  | some p =>
      obtain ⟨h, m⟩ := p
      simp only
      have h1 : min 23 h ≤ 23 := Nat.min_le_left _ _
      have h2 : min 59 m ≤ 59 := Nat.min_le_left _ _
      omega

set_option maxRecDepth 4000 in
theorem pad2_data : ∀ n < 100,
    (pad2 n).data = [Char.ofNat (48 + n / 10), Char.ofNat (48 + n % 10)] := by decide

theorem digitChar_facts : ∀ d < 10, isJsSpace (Char.ofNat (48 + d)) = false ∧
    (Char.ofNat (48 + d)).isDigit = true ∧ (Char.ofNat (48 + d)).toNat - 48 = d ∧
    (Char.ofNat (48 + d) = ':') = False := by decide

theorem fromMinutes_data (m : Int) :
    (fromMinutes m).data =
      [Char.ofNat (48 + ((m % 1440 + 1440) % 1440).toNat / 60 / 10),
       Char.ofNat (48 + ((m % 1440 + 1440) % 1440).toNat / 60 % 10), ':',
       Char.ofNat (48 + ((m % 1440 + 1440) % 1440).toNat % 60 / 10),
       Char.ofNat (48 + ((m % 1440 + 1440) % 1440).toNat % 60 % 10)] := by
  have hbound : ((m % 1440 + 1440) % 1440).toNat < 1440 := by omega
  set t := ((m % 1440 + 1440) % 1440).toNat with ht
  have h60 : t / 60 < 100 := by omega
  have hm60 : t % 60 < 100 := by omega
  show (pad2 (t / 60) ++ ":" ++ pad2 (t % 60)).data = _
  rw [String.data_append, String.data_append, pad2_data _ h60, pad2_data _ hm60]
  rfl

theorem toMinutes_fromMinutes (m : Int) :
    (toMinutes (fromMinutes m) : Int) = (m % 1440 + 1440) % 1440 := by
  have hbound : ((m % 1440 + 1440) % 1440).toNat < 1440 := by omega
  set t := ((m % 1440 + 1440) % 1440).toNat with ht
  have hd1 := digitChar_facts (t / 60 / 10) (by omega)
  have hd2 := digitChar_facts (t / 60 % 10) (by omega)
  have hd3 := digitChar_facts (t % 60 / 10) (by omega)
  have hd4 := digitChar_facts (t % 60 % 10) (by omega)
  have hdata := fromMinutes_data m
  rw [← ht] at hdata
  have hparse : parseHHMM (fromMinutes m) = some (t / 60, t % 60) := by
    unfold parseHHMM
    rw [hdata]
    rw [List.dropWhile_cons, if_neg (by simp [hd1.1])]
    simp only [List.reverse_cons, List.reverse_nil, List.nil_append, List.cons_append]
    rw [List.dropWhile_cons, if_neg (by simp [hd4.1])]
    simp only [List.reverse_cons, List.reverse_nil, List.nil_append, List.cons_append,
      List.append_nil]
    rw [if_pos (by simp [hd1.2.1, hd2.2.1, hd3.2.1, hd4.2.1])]
    rw [hd1.2.2.1, hd2.2.2.1, hd3.2.2.1, hd4.2.2.1]
    congr 1
    congr 1 <;> omega
  unfold toMinutes
  rw [hparse]
  simp only
  have e1 : min 23 (t / 60) = t / 60 := by omega
  have e2 : min 59 (t % 60) = t % 60 := by omega
  rw [e1, e2]
  omega

theorem toMinutes_addMinutes (s : String) (m : Int) :
    (toMinutes (addMinutes s m) : Int) = (((toMinutes s : Int) + m) % 1440 + 1440) % 1440 := by
  unfold addMinutes
  exact toMinutes_fromMinutes _

theorem diffForward_addMinutes_self (s : String) (m : Int) (hm0 : 0 ≤ m)
    (hm : m < 1440) : diffForward s (addMinutes s m) = m := by
  have h := toMinutes_addMinutes s m
  have hb := toMinutes_le s
  have hb2 := toMinutes_le (addMinutes s m)
  unfold diffForward
  dsimp only
  split <;> omega

theorem diffForward_nonneg (a b : String) : 0 ≤ diffForward a b := by
  have h1 := toMinutes_le a
  have h2 := toMinutes_le b
  unfold diffForward
  dsimp only
  split <;> omega

theorem diffForward_lt (a b : String) : diffForward a b < 1440 := by
  have h1 := toMinutes_le a
  have h2 := toMinutes_le b
  unfold diffForward
  dsimp only
  split <;> omega


/- ================================
   Lemmas: getAll / encodeItems normalization
   ================================ -/

namespace Schedule

theorem normEntry_encodeItem (it : ScheduleItem) :
    normEntry (encodeItem it) = some (normStored it) := rfl

theorem normStored_id (it : ScheduleItem) : (normStored it).id = it.id := rfl

theorem normStored_text (it : ScheduleItem) : (normStored it).text = it.text := rfl

theorem normStored_shape (it : ScheduleItem) : isHHMMShape (normStored it).time = true := by
  unfold normStored
  by_cases h : isHHMMShape it.time
  · simp [h]
  · simp [h]
    decide

theorem normStored_of_shape (it : ScheduleItem) (h : isHHMMShape it.time = true) :
    normStored it = it := by
  unfold normStored
  simp [h]

theorem map_normStored_of_shape (l : List ScheduleItem)
    (h : ∀ i ∈ l, isHHMMShape i.time = true) : l.map normStored = l := by
  induction l with
  | nil => rfl
  | cons x xs ih =>
      simp only [List.map_cons, normStored_of_shape x (h x (by simp)),
        ih (fun i hi => h i (by simp [hi]))]

theorem isHHMMShape_ne_empty (s : String) (h : isHHMMShape s = true) : s ≠ "" := by
  intro he
  subst he
  simp [isHHMMShape] at h

theorem getLast?_cons (a : α) (l : List α) : (a :: l).getLast? = some (l.getLast?.getD a) := by
  induction l generalizing a with
  | nil => rfl
  | cons b bs ih =>
      rw [List.getLast?_cons_cons, ih b]
      rfl

theorem getAllAux_encode (items : List ScheduleItem) :
    getAllAux (items.map encodeItem) =
      ((items.filter fun i => i.id ≠ END_ID).map normStored,
       ((items.filter fun i => i.id = END_ID).getLast?).map fun e => endify (normStored e)) := by
  induction items with
  | nil => rfl
  | cons it rest ih =>
      simp only [List.map_cons, getAllAux, normEntry_encodeItem, ih]
      by_cases h : it.id = END_ID
      · have hid : (normStored it).id = END_ID := by rw [normStored_id, h]
        simp only [hid, if_pos rfl, List.filter_cons, h]
        simp only [decide_not, decide_True, Bool.not_true, Bool.false_eq_true, if_false,
          if_true, getLast?_cons, Option.map_some', Prod.mk.injEq]
        refine ⟨trivial, ?_⟩
        cases hl : (rest.filter fun i => i.id = END_ID).getLast? <;> simp [hl]
      · have hid : ¬((normStored it).id = END_ID) := by rw [normStored_id]; exact h
        simp only [if_neg hid, List.filter_cons]
        simp [h]

theorem getAll_encodeItems (items : List ScheduleItem) :
    getAll (encodeItems items) =
      (items.filter fun i => i.id ≠ END_ID).map normStored
        ++ (((items.filter fun i => i.id = END_ID).getLast?).map
              fun e => endify (normStored e)).toList := by
  unfold getAll encodeItems
  simp only
  rw [getAllAux_encode]
  cases hl : (items.filter fun i => i.id = END_ID).getLast? <;> simp

theorem getAll_encode_std (acts : List ScheduleItem) (endIt : ScheduleItem)
    (ha : ∀ a ∈ acts, a.id ≠ END_ID) (he : endIt.id = END_ID) :
    getAll (encodeItems (acts ++ [endIt])) =
      acts.map normStored ++ [endify (normStored endIt)] := by
  rw [getAll_encodeItems]
  have h1 : (acts ++ [endIt]).filter (fun i => i.id ≠ END_ID) = acts := by
    rw [List.filter_append]
    have h0 : acts.filter (fun i => i.id ≠ END_ID) = acts :=
      List.filter_eq_self.mpr (fun a hain => by simp [ha a hain])
    rw [h0]
    simp [List.filter_cons, he]
  have h2 : (acts ++ [endIt]).filter (fun i => i.id = END_ID) = [endIt] := by
    rw [List.filter_append]
    have h0 : acts.filter (fun i => i.id = END_ID) = [] :=
      List.filter_eq_nil_iff.mpr (fun a hain => by simp [ha a hain])
    rw [h0]
    simp [List.filter_cons, he]
  rw [h1, h2]
  rfl

theorem isHHMMShape_default : isHHMMShape "08:00" = true := by decide

theorem normEntry_shape (j : Json) (it : ScheduleItem) (h : normEntry j = some it) :
    isHHMMShape it.time = true := by
  unfold normEntry at h
  cases j with
  | obj fields =>
      simp only at h
      cases hid : Json.getField fields "id" with
      | none => rw [hid] at h; exact absurd h (by simp)
      | some v =>
          rw [hid] at h
          cases v with
          | str s =>
              simp only [Option.some.injEq] at h
              subst h
              simp only
              cases ht : Json.getField fields "time" with
              | none => exact isHHMMShape_default
              | some tv =>
                  cases tv <;> simp only <;> try exact isHHMMShape_default
                  case str ts =>
                    by_cases hs : isHHMMShape ts
                    · simp [hs]
                    · simp [hs]; exact isHHMMShape_default
          | null => exact absurd h (by simp)
          | bool b => exact absurd h (by simp)
          | num n => exact absurd h (by simp)
          | arr xs => exact absurd h (by simp)
          | obj o => exact absurd h (by simp)
  | null => exact absurd h (by simp)
  | bool b => exact absurd h (by simp)
  | num n => exact absurd h (by simp)
  | str s => exact absurd h (by simp)
  | arr xs => exact absurd h (by simp)

theorem endify_id (it : ScheduleItem) : (endify it).id = END_ID := rfl

theorem endify_text_ne (it : ScheduleItem) : (endify it).text ≠ "" := by
  unfold endify
  by_cases h : it.text = "" <;> simp [h]

theorem endify_time_of_shape (it : ScheduleItem) (h : isHHMMShape it.time = true) :
    (endify it).time = it.time := by
  unfold endify
  simp [isHHMMShape_ne_empty it.time h]

theorem endify_shape (it : ScheduleItem) (h : isHHMMShape it.time = true) :
    isHHMMShape (endify it).time = true := by
  rw [endify_time_of_shape it h]
  exact h

/-- Each ordinary item returned by the `getAll` loop has a non-sentinel id, a
shape-valid time, and comes from a stored entry. -/
theorem getAllAux_normal (js : List Json) :
    ∀ it ∈ (getAllAux js).1, it.id ≠ END_ID ∧ isHHMMShape it.time = true ∧
      ∃ j ∈ js, normEntry j = some it := by
  induction js with
  | nil => intro it h; exact absurd h (by simp [getAllAux])
  | cons j rest ih =>
      intro it hmem
      unfold getAllAux at hmem
      cases hn : normEntry j with
      | none =>
          rw [hn] at hmem
          obtain ⟨h1, h2, jj, hjj, hne⟩ := ih it hmem
          exact ⟨h1, h2, jj, by simp [hjj], hne⟩
      | some x =>
          rw [hn] at hmem
          dsimp only at hmem
          by_cases hx : x.id = END_ID
          · rw [if_pos hx] at hmem
            obtain ⟨h1, h2, jj, hjj, hne⟩ := ih it hmem
            exact ⟨h1, h2, jj, by simp [hjj], hne⟩
          · rw [if_neg hx] at hmem
            rcases List.mem_cons.mp hmem with heq | hmem'
            · subst heq
              exact ⟨hx, normEntry_shape j it hn, j, by simp, hn⟩
            · obtain ⟨h1, h2, jj, hjj, hne⟩ := ih it hmem'
              exact ⟨h1, h2, jj, by simp [hjj], hne⟩

/-- The sentinel returned by the `getAll` loop carries the reserved id, a
non-empty text, a shape-valid time, and is the image of a stored `END_ID`
entry under `endify`. -/
theorem getAllAux_end (js : List Json) :
    ∀ e, (getAllAux js).2 = some e → e.id = END_ID ∧ e.text ≠ "" ∧
      isHHMMShape e.time = true ∧
      ∃ j ∈ js, ∃ it, normEntry j = some it ∧ it.id = END_ID ∧ e = endify it := by
  induction js with
  | nil => intro e h; exact absurd h (by simp [getAllAux])
  | cons j rest ih =>
      intro e hsome
      unfold getAllAux at hsome
      cases hn : normEntry j with
      | none =>
          rw [hn] at hsome
          obtain ⟨h1, h2, h3, jj, hjj, hw⟩ := ih e hsome
          exact ⟨h1, h2, h3, jj, by simp [hjj], hw⟩
      | some x =>
          rw [hn] at hsome
          dsimp only at hsome
          by_cases hx : x.id = END_ID
          · rw [if_pos hx] at hsome
            simp only [Option.some.injEq] at hsome
            cases htail : (getAllAux rest).2 with
            | some e' =>
                rw [htail] at hsome
                simp only [Option.getD_some] at hsome
                subst hsome
                obtain ⟨h1, h2, h3, jj, hjj, hw⟩ := ih e' htail
                exact ⟨h1, h2, h3, jj, by simp [hjj], hw⟩
            | none =>
                rw [htail] at hsome
                simp only [Option.getD_none] at hsome
                subst hsome
                have hsh : isHHMMShape x.time = true := normEntry_shape j x hn
                exact ⟨endify_id x, endify_text_ne x, endify_shape x hsh,
                  j, by simp, x, hn, hx, rfl⟩
          · rw [if_neg hx] at hsome
            obtain ⟨h1, h2, h3, jj, hjj, hw⟩ := ih e hsome
            exact ⟨h1, h2, h3, jj, by simp [hjj], hw⟩

/-- The `getAll` loop produces a sentinel exactly when some stored entry is a
valid `END_ID` entry. -/
theorem getAllAux_end_isSome (js : List Json) :
    (getAllAux js).2.isSome = true ↔
      ∃ j ∈ js, ∃ it, normEntry j = some it ∧ it.id = END_ID := by
  induction js with
  | nil => simp [getAllAux]
  | cons j rest ih =>
      unfold getAllAux
      cases hn : normEntry j with
      | none =>
          simp only
          rw [ih]
          constructor
          · rintro ⟨jj, hjj, w⟩; exact ⟨jj, by simp [hjj], w⟩
          · rintro ⟨jj, hjj, it, hit, hid⟩
            rcases List.mem_cons.mp hjj with heq | hmem
            · subst heq; rw [hn] at hit; exact absurd hit (by simp)
            · exact ⟨jj, hmem, it, hit, hid⟩
      | some x =>
          by_cases hx : x.id = END_ID
          · simp only [if_pos hx, Option.isSome_some, true_iff]
            exact ⟨j, by simp, x, hn, hx⟩
          · simp only [if_neg hx]
            rw [ih]
            constructor
            · rintro ⟨jj, hjj, w⟩; exact ⟨jj, by simp [hjj], w⟩
            · rintro ⟨jj, hjj, it, hit, hid⟩
              rcases List.mem_cons.mp hjj with heq | hmem
              · subst heq
                rw [hn] at hit
                simp only [Option.some.injEq] at hit
                subst hit
                exact absurd hid hx
              · exact ⟨jj, hmem, it, hit, hid⟩

end Schedule

/- ================================
   Lemmas: formatted times, stable sort, sentinel gap enforcement
   ================================ -/

theorem isHHMMShape_fromMinutes (m : Int) : isHHMMShape (fromMinutes m) = true := by
  have hbound : ((m % 1440 + 1440) % 1440).toNat < 1440 := by omega
  have hdata := fromMinutes_data m
  set t := ((m % 1440 + 1440) % 1440).toNat with ht
  have hd1 := digitChar_facts (t / 60 / 10) (by omega)
  have hd2 := digitChar_facts (t / 60 % 10) (by omega)
  have hd3 := digitChar_facts (t % 60 / 10) (by omega)
  have hd4 := digitChar_facts (t % 60 % 10) (by omega)
  unfold isHHMMShape
  rw [hdata]
  simp [hd1.2.1, hd2.2.1, hd3.2.1, hd4.2.1]

theorem isHHMMShape_addMinutes (s : String) (m : Int) :
    isHHMMShape (addMinutes s m) = true := isHHMMShape_fromMinutes _

namespace Schedule

theorem sortKeyLE_trans (a b c : Nat × ScheduleItem) :
    sortKeyLE a b = true → sortKeyLE b c = true → sortKeyLE a c = true := by
  unfold sortKeyLE
  intro h1 h2
  simp only [Bool.or_eq_true, Bool.and_eq_true, decide_eq_true_eq] at h1 h2 ⊢
  omega

theorem sortKeyLE_total (a b : Nat × ScheduleItem) :
    (sortKeyLE a b || sortKeyLE b a) = true := by
  unfold sortKeyLE
  simp only [Bool.or_eq_true, Bool.and_eq_true, decide_eq_true_eq]
  omega

theorem stableSortByTime_perm (l : List ScheduleItem) :
    (stableSortByTime l).Perm l := by
  unfold stableSortByTime stableSortTagged
  have h1 : (List.insertionSort sortKeyRel l.enum).Perm l.enum :=
    List.perm_insertionSort _ _
  have h2 := h1.map Prod.snd
  rwa [List.enum_map_snd] at h2

theorem stableSortTagged_sorted (l : List ScheduleItem) :
    (stableSortTagged l).Pairwise sortKeyRel := by
  unfold stableSortTagged
  exact List.sorted_insertionSort sortKeyRel l.enum

theorem stableSortByTime_sorted (l : List ScheduleItem) :
    (stableSortByTime l).Pairwise
      (fun a b => toMinutes a.time ≤ toMinutes b.time) := by
  unfold stableSortByTime
  refine List.Pairwise.map _ ?_ (stableSortTagged_sorted l)
  intro a b hab
  unfold sortKeyRel sortKeyLE at hab
  simp only [Bool.or_eq_true, Bool.and_eq_true, decide_eq_true_eq] at hab
  omega

theorem stableSortTagged_stable (l : List ScheduleItem) :
    (stableSortTagged l).Pairwise
      (fun p q => toMinutes p.2.time = toMinutes q.2.time → p.1 ≤ q.1) := by
  refine (stableSortTagged_sorted l).imp ?_
  intro a b hab
  unfold sortKeyRel sortKeyLE at hab
  simp only [Bool.or_eq_true, Bool.and_eq_true, decide_eq_true_eq] at hab
  omega

theorem enforceEndAfterLast_gap (endTime : String) (sorted : List ScheduleItem)
    (last : ScheduleItem) (h : sorted.getLast? = some last) :
    (MIN_GAP_MINUTES : Int) ≤ diffForward last.time (enforceEndAfterLast endTime sorted) := by
  unfold enforceEndAfterLast
  rw [h]
  dsimp only
  by_cases hgap : diffForward last.time endTime < (MIN_GAP_MINUTES : Int)
  · rw [if_pos hgap,
      diffForward_addMinutes_self last.time MIN_GAP_MINUTES (by decide) (by decide)]
  · rw [if_neg hgap]
    omega

end Schedule

/- ================================
   Claim C9 — wrap-around time arithmetic
   ================================ -/

/-- C9: time arithmetic is forward-wrapping modulo 1440 minutes: the forward
difference is always non-negative and equals `(b − a) mod 1440`, addition of
minutes wraps modulo 1440, and concretely
`diffForward "23:30" "00:15" = 45` and `addMinutes "23:30" 60 = "00:30"`. -/
theorem claim_C9_wrap_around_arithmetic :
    diffForward "23:30" "00:15" = 45 ∧
    addMinutes "23:30" 60 = "00:30" ∧
    (∀ a b : String, 0 ≤ diffForward a b ∧
      diffForward a b = ((toMinutes b : Int) - (toMinutes a : Int)) % 1440) ∧
    (∀ (t : String) (m : Int),
      (toMinutes (addMinutes t m) : Int) = (((toMinutes t : Int) + m) % 1440 + 1440) % 1440) := by
  refine ⟨by decide, by decide, ?_, toMinutes_addMinutes⟩
  intro a b
  have h1 := toMinutes_le a
  have h2 := toMinutes_le b
  refine ⟨diffForward_nonneg a b, ?_⟩
  unfold diffForward
  dsimp only
  split <;> omega

/- ================================
   Claim C1 — reflow scenario
   ================================ -/

/-- C1 (counterexample): with `toIndex = 2` the source splices the dragged
first activity back in at adjusted position 1, so the resulting order is
`[b, a, c]`, not the claimed `[b, c, a]`. -/
theorem claim_C1_counterexample :
    (Schedule.getAll (Schedule.moveToIndexWithReflow c1State "a" 2)).map
        (fun i => i.id) = ["b", "a", "c", Schedule.END_ID] ∧
    (["b", "a", "c", Schedule.END_ID] : List String) ≠
      ["b", "c", "a", Schedule.END_ID] := by
  constructor
  · decide
  · decide

/-- C1 (amended): dragging `"a"` past `"c"` means `toIndex = 3` in the
as-seen-before-removal coordinates; then the order becomes `[b, c, a]`, the
anchor is the old first activity's time `08:00`, each activity keeps its
pre-move 60-minute duration (b=08:00, c=09:00, a=10:00), and the sentinel
stays at 11:00. -/
theorem claim_C1_reflow_scenario :
    Schedule.getAll (Schedule.moveToIndexWithReflow c1State "a" 3) =
      [⟨"b", "Activity b", "08:00"⟩, ⟨"c", "Activity c", "09:00"⟩,
       ⟨"a", "Activity a", "10:00"⟩, ⟨Schedule.END_ID, "End", "11:00"⟩] := by decide

/- ================================
   Claim C5 — generic moveToIndex
   ================================ -/

namespace GenericList

theorem findIndex_lt_length (p : GItem → Bool) (l : List GItem) (i : Nat)
    (h : findIndex p l = some i) : i < l.length := by
  induction l generalizing i with
  | nil => exact absurd h (by simp [findIndex])
  | cons x xs ih =>
      unfold findIndex at h
      by_cases hp : p x
      · rw [if_pos hp] at h
        simp only [Option.some.injEq] at h
        subst h
        simp
      · rw [if_neg hp] at h
        cases hj : findIndex p xs with
        | none => rw [hj] at h; exact absurd h (by simp)
        | some j =>
            rw [hj] at h
            simp only [Option.map_some', Option.some.injEq] at h
            subst h
            have := ih j hj
            simp
            omega

end GenericList

/-- C5: `moveToIndex` is a no-op when the clamped destination equals the
item's index or the one right after it (in particular `moveToIndex A.id 0` and
`moveToIndex A.id 1` on `[A, B, C]`); a real move removes the item at its
index and reinserts it at the destination (reduced by one when it lay past the
removal point), and erasing the reinserted item recovers the original list
without the moved element — so all other items keep their relative order. -/
theorem claim_C5_moveToIndex (items : List GenericList.GItem) (id : String)
    (toIndex : Int) (fromIdx : Nat) (moved : GenericList.GItem)
    (hlen : 2 ≤ items.length)
    (hfind : GenericList.findIndex (fun i => i.id = id) items = some fromIdx)
    (hget : items[fromIdx]? = some moved) :
    (GenericList.clampDest items.length toIndex = fromIdx ∨
       GenericList.clampDest items.length toIndex = fromIdx + 1 →
       GenericList.moveToIndex items id toIndex = items) ∧
    (¬(GenericList.clampDest items.length toIndex = fromIdx ∨
        GenericList.clampDest items.length toIndex = fromIdx + 1) →
      GenericList.moveToIndex items id toIndex =
        (items.eraseIdx fromIdx).insertIdx
          (if GenericList.clampDest items.length toIndex > fromIdx
           then GenericList.clampDest items.length toIndex - 1
           else GenericList.clampDest items.length toIndex) moved ∧
      (GenericList.moveToIndex items id toIndex).eraseIdx
          (if GenericList.clampDest items.length toIndex > fromIdx
           then GenericList.clampDest items.length toIndex - 1
           else GenericList.clampDest items.length toIndex) =
        items.eraseIdx fromIdx) ∧
    (∀ A B C : GenericList.GItem,
      GenericList.moveToIndex [A, B, C] A.id 0 = [A, B, C] ∧
      GenericList.moveToIndex [A, B, C] A.id 1 = [A, B, C]) := by
  refine ⟨?_, ?_, ?_⟩
  · intro hnoop
    unfold GenericList.moveToIndex
    rw [if_neg (by omega), hfind]
    dsimp only
    rw [hget]
    dsimp only
    rw [if_pos hnoop]
  · intro hreal
    unfold GenericList.moveToIndex
    rw [if_neg (by omega), hfind]
    dsimp only
    rw [hget]
    dsimp only
    rw [if_neg hreal]
    exact ⟨rfl, List.eraseIdx_insertIdx _ _⟩
  · intro A B C
    constructor <;>
      simp [GenericList.moveToIndex, GenericList.findIndex, GenericList.clampDest]

/-- Witness for C5 at a concrete three-item list and a real move. -/
theorem claim_C5_moveToIndex_witness :
    GenericList.moveToIndex
        [⟨"A", "a", false⟩, ⟨"B", "b", false⟩, ⟨"C", "c", false⟩] "A" 3 =
      [⟨"B", "b", false⟩, ⟨"C", "c", false⟩, ⟨"A", "a", false⟩] := by
  have h := (claim_C5_moveToIndex
    [⟨"A", "a", false⟩, ⟨"B", "b", false⟩, ⟨"C", "c", false⟩] "A" 3 0
    ⟨"A", "a", false⟩ (by decide) (by decide) (by decide)).2.1 (by decide)
  rw [h.1]
  decide

/- ================================
   Claim C4 — add with lazy sentinel
   ================================ -/

/-- C4: `add` trims the text and is a no-op when the result is empty; on an
empty store it creates the activity at the requested time plus the sentinel 60
minutes later; when a sentinel at time `e` exists it appends the new activity
at `e` and pushes the sentinel to `e + 60` minutes (wrapping). -/
theorem claim_C4_add (content : Json) (newId text time : String) :
    (jsTrim text = "" → Schedule.add content newId text time = content) ∧
    (jsTrim text ≠ "" → Schedule.getAll content = [] →
      Schedule.add content newId text time =
        Schedule.encodeItems
          [⟨newId, jsTrim text, time⟩,
           ⟨Schedule.END_ID, "End", addMinutes time 60⟩]) ∧
    (∀ endIt, jsTrim text ≠ "" →
      (Schedule.getAll content).find? (fun i => i.id = Schedule.END_ID) = some endIt →
      Schedule.add content newId text time =
        Schedule.encodeItems
          (((Schedule.getAll content).filter fun i => i.id ≠ Schedule.END_ID)
            ++ [⟨newId, jsTrim text, endIt.time⟩,
                { endIt with time := addMinutes endIt.time 60 }])) := by
  refine ⟨?_, ?_, ?_⟩
  · intro hempty
    unfold Schedule.add
    rw [if_pos hempty]
  · intro hne hnil
    unfold Schedule.add
    rw [if_neg hne, hnil]
    dsimp only
    rw [if_pos (by simp [List.any_nil])]
  · intro endIt hne hfind
    unfold Schedule.add
    rw [if_neg hne]
    dsimp only
    have hasEnd : ((Schedule.getAll content).any fun i => i.id = Schedule.END_ID) = true := by
      refine List.any_eq_true.mpr ⟨endIt, List.mem_of_find?_eq_some hfind, ?_⟩
      simpa using List.find?_some hfind
    rw [if_neg (by simp [hasEnd]), hfind]

/-- Witness for C4: the empty-text no-op, the first `add` on an empty store,
and an `add` on the stored scenario schedule. -/
theorem claim_C4_add_witness :
    Schedule.add (Json.arr []) "n1" "   " "08:00" = Json.arr [] ∧
    Schedule.add (Json.arr []) "n1" " x " "08:00" =
      Schedule.encodeItems
        [⟨"n1", "x", "08:00"⟩, ⟨Schedule.END_ID, "End", "09:00"⟩] ∧
    Schedule.add c1State "n2" "y" "12:00" =
      Schedule.encodeItems
        (((Schedule.getAll c1State).filter fun i => i.id ≠ Schedule.END_ID)
          ++ [⟨"n2", "y", "11:00"⟩, ⟨Schedule.END_ID, "End", "12:00"⟩]) := by
  refine ⟨(claim_C4_add (Json.arr []) "n1" "   " "08:00").1 (by decide), ?_, ?_⟩
  · have h := (claim_C4_add (Json.arr []) "n1" " x " "08:00").2.1 (by decide) (by decide)
    rw [h]
    rfl
  · have h := (claim_C4_add c1State "n2" "y" "12:00").2.2
      ⟨Schedule.END_ID, "End", "11:00"⟩ (by decide) (by decide)
    rw [h]
    rfl

/- ================================
   Claim C8 — stable re-sort on updateTime
   ================================ -/

/-- C8: the re-sort is stable — the sorted list is a permutation of the
activities, ascending by time, and on equal times the original positions stay
in order; concretely, after `updateTime` re-sorts `[X@09:00, Y@09:00,
Z@08:00]`, the order is `[Z, X, Y]` with `X` still before `Y`. -/
theorem claim_C8_sort_stability :
    (∀ l : List Schedule.ScheduleItem, (Schedule.stableSortByTime l).Perm l) ∧
    (∀ l : List Schedule.ScheduleItem,
      (Schedule.stableSortByTime l).Pairwise
        fun a b => toMinutes a.time ≤ toMinutes b.time) ∧
    (∀ l : List Schedule.ScheduleItem,
      (Schedule.stableSortTagged l).Pairwise
        fun p q => toMinutes p.2.time = toMinutes q.2.time → p.1 ≤ q.1) ∧
    (Schedule.getAll (Schedule.updateTime c8State "Z" "08:00")).map (fun i => i.id) =
      ["Z", "X", "Y", Schedule.END_ID] := by
  refine ⟨Schedule.stableSortByTime_perm, Schedule.stableSortByTime_sorted,
    Schedule.stableSortTagged_stable, by decide⟩

/- ================================
   Lemmas: getAll on arbitrary stored content
   ================================ -/

namespace Schedule

theorem getAll_eq (content : Json) :
    getAll content = (getAllAux (contentElems content)).1
      ++ ((getAllAux (contentElems content)).2).toList := by
  have assemble : ∀ js : List Json,
      getAll (Json.arr js) = (getAllAux js).1 ++ ((getAllAux js).2).toList := by
    intro js
    unfold getAll
    dsimp only
    cases h : getAllAux js with
    | mk n eo => cases eo <;> simp [h]
  cases content with
  | arr xs => exact assemble xs
  | null => rfl
  | bool b => rfl
  | num n => rfl
  | str s => rfl
  | obj fields => rfl

theorem getAll_times_shape (content : Json) :
    ∀ it ∈ getAll content, isHHMMShape it.time = true := by
  intro it hmem
  rw [getAll_eq] at hmem
  rcases List.mem_append.mp hmem with h | h
  · exact (getAllAux_normal _ it h).2.1
  · cases heo : (getAllAux (contentElems content)).2 with
    | none => rw [heo] at h; exact absurd h (by simp)
    | some e =>
        rw [heo] at h
        simp only [Option.toList_some, List.mem_singleton] at h
        subst h
        exact (getAllAux_end _ _ heo).2.2.1

theorem getAll_end_props (content : Json) :
    ∀ it ∈ getAll content, it.id = END_ID →
      (getAll content).getLast? = some it ∧ it.text ≠ "" := by
  intro it hmem hid
  rw [getAll_eq] at hmem ⊢
  rcases List.mem_append.mp hmem with h | h
  · exact absurd hid (getAllAux_normal _ it h).1
  · cases heo : (getAllAux (contentElems content)).2 with
    | none => rw [heo] at h; exact absurd h (by simp)
    | some e =>
        rw [heo] at h
        simp only [Option.toList_some, List.mem_singleton] at h
        subst h
        exact ⟨List.getLast?_concat _, (getAllAux_end _ it heo).2.1⟩

theorem getAll_end_count (content : Json) :
    (getAll content).countP (fun it => it.id = END_ID) ≤ 1 := by
  rw [getAll_eq, List.countP_append]
  have h1 : (getAllAux (contentElems content)).1.countP (fun it => it.id = END_ID) = 0 := by
    rw [List.countP_eq_zero]
    intro a ha
    simpa using (getAllAux_normal _ a ha).1
  rw [h1]
  cases heo : (getAllAux (contentElems content)).2 with
  | none => simp
  | some e => by_cases hp : e.id = END_ID <;> simp [List.countP_cons, hp]

end Schedule

/-- An accepted entry whose stored time is not a shape-matching string is
normalized to the default time `"08:00"`. -/
theorem Schedule.normEntry_default_time (j : Json) (raw : Schedule.ScheduleItem)
    (hn : Schedule.normEntry j = some raw)
    (hbad : Schedule.storedTimeShapeOk j = false) : raw.time = "08:00" := by
  unfold Schedule.normEntry at hn
  unfold Schedule.storedTimeShapeOk at hbad
  cases j with
  | obj fields =>
      simp only at hn hbad
      cases hid : Json.getField fields "id" with
      | none => rw [hid] at hn; exact absurd hn (by simp)
      | some v =>
          rw [hid] at hn
          cases v with
          | str s =>
              simp only [Option.some.injEq] at hn
              subst hn
              simp only
              cases ht : Json.getField fields "time" with
              | none => rfl
              | some tv =>
                  rw [ht] at hbad
                  cases tv <;> simp only <;> try rfl
                  case str ts =>
                    dsimp only at hbad
                    simp [hbad]
          | null => exact absurd hn (by simp)
          | bool b => exact absurd hn (by simp)
          | num n => exact absurd hn (by simp)
          | arr xs => exact absurd hn (by simp)
          | obj o => exact absurd hn (by simp)
  | null => exact absurd hn (by simp)
  | bool b => exact absurd hn (by simp)
  | num n => exact absurd hn (by simp)
  | str s => exact absurd hn (by simp)
  | arr xs => exact absurd hn (by simp)

/- ================================
   Claim C10 — getAll normalization invariants
   ================================ -/

/-- C10: for every stored content value, `getAll` drops non-arrays and entries
without a string id; every returned item's time matches the two-digit shape,
entries with a non-conforming stored time get `"08:00"`; the sentinel occurs
at most once, always last, with a non-empty text (defaulting to `"End"`), and
it is present exactly when some accepted stored entry carries the reserved
id. -/
theorem claim_C10_getAll_normalization (content : Json) :
    ((∀ xs, content ≠ Json.arr xs) → Schedule.getAll content = []) ∧
    (∀ it ∈ Schedule.getAll content, isHHMMShape it.time = true) ∧
    (∀ it ∈ Schedule.getAll content, ∃ j ∈ Schedule.contentElems content,
      ∃ raw, Schedule.normEntry j = some raw ∧ raw.id = it.id) ∧
    ((Schedule.getAll content).countP (fun it => it.id = Schedule.END_ID) ≤ 1) ∧
    (∀ it ∈ Schedule.getAll content, it.id = Schedule.END_ID →
      (Schedule.getAll content).getLast? = some it ∧ it.text ≠ "") ∧
    ((∃ j ∈ Schedule.contentElems content,
        ∃ raw, Schedule.normEntry j = some raw ∧ raw.id = Schedule.END_ID) →
      ∃ e, (Schedule.getAll content).getLast? = some e ∧ e.id = Schedule.END_ID) ∧
    (∀ j ∈ Schedule.contentElems content, ∀ raw, Schedule.normEntry j = some raw →
      Schedule.storedTimeShapeOk j = false → raw.time = "08:00") := by
  refine ⟨?_, Schedule.getAll_times_shape content, ?_, Schedule.getAll_end_count content,
    Schedule.getAll_end_props content, ?_, ?_⟩
  · intro hnotarr
    cases content with
    | arr xs => exact absurd rfl (hnotarr xs)
    | null => rfl
    | bool b => rfl
    | num n => rfl
    | str s => rfl
    | obj fields => rfl
  · intro it hmem
    rw [Schedule.getAll_eq] at hmem
    rcases List.mem_append.mp hmem with h | h
    · obtain ⟨_, _, j, hj, hn⟩ := Schedule.getAllAux_normal _ it h
      exact ⟨j, hj, it, hn, rfl⟩
    · cases heo : (Schedule.getAllAux (Schedule.contentElems content)).2 with
      | none => rw [heo] at h; exact absurd h (by simp)
      | some e =>
          rw [heo] at h
          simp only [Option.toList_some, List.mem_singleton] at h
          subst h
          obtain ⟨hide, _, _, j, hj, raw, hn, hrid, _⟩ := Schedule.getAllAux_end _ _ heo
          exact ⟨j, hj, raw, hn, by rw [hrid, hide]⟩
  · rintro ⟨j, hj, raw, hn, hrid⟩
    have hsome : (Schedule.getAllAux (Schedule.contentElems content)).2.isSome = true :=
      (Schedule.getAllAux_end_isSome _).mpr ⟨j, hj, raw, hn, hrid⟩
    cases heo : (Schedule.getAllAux (Schedule.contentElems content)).2 with
    | none => rw [heo] at hsome; exact absurd hsome (by simp)
    | some e =>
        refine ⟨e, ?_, (Schedule.getAllAux_end _ _ heo).1⟩
        rw [Schedule.getAll_eq, heo]
        exact List.getLast?_concat _
  · intro j _ raw hn hbad
    exact Schedule.normEntry_default_time j raw hn hbad

/-- Witness for C10 at a malformed stored value: a non-array entry, an entry
without a string id, a bad time, and two sentinel entries. -/
theorem claim_C10_getAll_normalization_witness :
    Schedule.getAll (Json.arr
      [.num 5, .obj [("text", .str "no id")],
       .obj [("id", .str "a"), ("text", .str "A"), ("time", .str "8:00")],
       .obj [("id", .str Schedule.END_ID), ("time", .str "21:00")],
       .obj [("id", .str Schedule.END_ID), ("text", .str ""), ("time", .str "22:00")]]) =
      [⟨"a", "A", "08:00"⟩, ⟨Schedule.END_ID, "End", "22:00"⟩] ∧
    (Schedule.getAll (Json.num 7) = []) := by
  have h1 := (claim_C10_getAll_normalization (Json.num 7)).1 (fun xs h => by simp at h)
  exact ⟨by decide, h1⟩

/- ================================
   Lemmas: updateTime decomposition, add with an existing sentinel
   ================================ -/

namespace Schedule

theorem filter_activities_append (l : List ScheduleItem) (e : ScheduleItem)
    (hl : ∀ i ∈ l, i.id ≠ END_ID) (he : e.id = END_ID) :
    (l ++ [e]).filter (fun i => i.id ≠ END_ID) = l := by
  rw [List.filter_append]
  have h0 : l.filter (fun i => i.id ≠ END_ID) = l :=
    List.filter_eq_self.mpr (fun a hain => by simp [hl a hain])
  rw [h0]
  simp [List.filter_cons, he]

theorem find?_end_append (l : List ScheduleItem) (e : ScheduleItem)
    (hl : ∀ i ∈ l, i.id ≠ END_ID) (he : e.id = END_ID) :
    (l ++ [e]).find? (fun i => i.id = END_ID) = some e := by
  rw [List.find?_append]
  have h0 : l.find? (fun i => i.id = END_ID) = none :=
    List.find?_eq_none.mpr (fun a hain => by simp [hl a hain])
  rw [h0]
  simp [List.find?_cons, he]

/-- `Model.add` when a sentinel is stored: the new activity is appended at the
sentinel's time and the sentinel moves 60 minutes forward. -/
theorem add_with_end (content : Json) (newId text time : String)
    (endIt : ScheduleItem) (hne : jsTrim text ≠ "")
    (hfind : (getAll content).find? (fun i => i.id = END_ID) = some endIt) :
    add content newId text time =
      encodeItems
        (((getAll content).filter fun i => i.id ≠ END_ID)
          ++ [⟨newId, jsTrim text, endIt.time⟩,
              { endIt with time := addMinutes endIt.time 60 }]) := by
  unfold add
  rw [if_neg hne]
  dsimp only
  have hasEnd : ((getAll content).any fun i => i.id = END_ID) = true := by
    refine List.any_eq_true.mpr ⟨endIt, List.mem_of_find?_eq_some hfind, ?_⟩
    simpa using List.find?_some hfind
  rw [if_neg (by simp [hasEnd]), hfind]

/-- Membership description of the item list after the time replacement of
`updateTime`. -/
theorem updateTime_mapped_mem (content : Json) (id t : String) (x : ScheduleItem)
    (hx : x ∈ (getAll content).map fun i =>
        if i.id = id then { i with time := t } else i) :
    ∃ g ∈ getAll content, x.id = g.id ∧ x.text = g.text ∧
      (x.time = t ∨ x.time = g.time) := by
  obtain ⟨g, hg, hfg⟩ := List.mem_map.mp hx
  by_cases hid : g.id = id
  · rw [if_pos hid] at hfg
    exact ⟨g, hg, by rw [← hfg], by rw [← hfg], Or.inl (by rw [← hfg])⟩
  · rw [if_neg hid] at hfg
    exact ⟨g, hg, by rw [← hfg], by rw [← hfg], Or.inr (by rw [← hfg])⟩

/-- Every element of the sorted activity list of `updateTime` is an ordinary
activity with a shape-valid time that is either the fresh time `t` or the
stored time of a stored item with the same id. -/
theorem updateTime_sorted_mem (content : Json) (id t : String)
    (hsh : isHHMMShape t = true) (x : ScheduleItem)
    (hx : x ∈ stableSortByTime (((getAll content).map fun i =>
        if i.id = id then { i with time := t } else i).filter
          fun i => i.id ≠ END_ID)) :
    x.id ≠ END_ID ∧ isHHMMShape x.time = true ∧
      (x.time = t ∨ ∃ g ∈ getAll content, g.id = x.id ∧ x.time = g.time) := by
  have hmem := (stableSortByTime_perm _).mem_iff.mp hx
  have hfil := List.mem_filter.mp hmem
  obtain ⟨g, hg, hgid, _, htime⟩ := updateTime_mapped_mem content id t x hfil.1
  refine ⟨by simpa using hfil.2, ?_, ?_⟩
  · rcases htime with h | h
    · rw [h]; exact hsh
    · rw [h]; exact getAll_times_shape content g hg
  · rcases htime with h | h
    · exact Or.inl h
    · exact Or.inr ⟨g, hg, hgid.symm, h⟩

theorem enforceEndAfterLast_shape (endTime : String) (sorted : List ScheduleItem)
    (h : isHHMMShape endTime = true) :
    isHHMMShape (enforceEndAfterLast endTime sorted) = true := by
  unfold enforceEndAfterLast
  cases sorted.getLast? with
  | none => exact h
  | some last =>
      dsimp only
      split
      · exact isHHMMShape_addMinutes _ _
      · exact h

/-- `Model.updateTime` on a shape-valid time argument writes the stable sort
of the re-timed activities followed by one sentinel whose id is reserved,
whose text is non-empty, whose time is shape-valid, and whose time is the
gap-enforced sentinel time. -/
theorem updateTime_decomp (content : Json) (id t : String)
    (hsh : isHHMMShape t = true) :
    ∃ endFinal endT,
      updateTime content id t = encodeItems
        (stableSortByTime (((getAll content).map fun i =>
            if i.id = id then { i with time := t } else i).filter
              fun i => i.id ≠ END_ID) ++ [endFinal]) ∧
      endFinal.id = END_ID ∧ endFinal.text ≠ "" ∧
      isHHMMShape endFinal.time = true ∧
      endFinal.time = enforceEndAfterLast endT
        (stableSortByTime (((getAll content).map fun i =>
            if i.id = id then { i with time := t } else i).filter
              fun i => i.id ≠ END_ID)) := by
  unfold updateTime
  rw [if_neg (by simp [hsh])]
  dsimp only
  cases hfind : ((getAll content).map fun i =>
      if i.id = id then { i with time := t } else i).find?
        (fun i => i.id = END_ID) with
  | some e =>
      dsimp only
      have heid : e.id = END_ID := by simpa using List.find?_some hfind
      have hemem := List.mem_of_find?_eq_some hfind
      obtain ⟨g, hg, hgid, hgtext, hgtime⟩ := updateTime_mapped_mem content id t e hemem
      have hgend : g.id = END_ID := by rw [← hgid]; exact heid
      have htext : e.text ≠ "" := by
        rw [hgtext]
        exact (getAll_end_props content g hg hgend).2
      have hetime : isHHMMShape e.time = true := by
        rcases hgtime with h | h
        · rw [h]; exact hsh
        · rw [h]; exact getAll_times_shape content g hg
      refine ⟨_, e.time, rfl, heid, htext, ?_, rfl⟩
      exact enforceEndAfterLast_shape _ _ hetime
  | none =>
      dsimp only
      refine ⟨_, "23:59", rfl, rfl, by simp, ?_, rfl⟩
      exact enforceEndAfterLast_shape _ _ (by decide)

end Schedule

/- ================================
   Claim C3 — updateTime validation (corrected)
   ================================ -/

/-- C3 (counterexample): `updateTime` accepts any string of the two-digit
shape, including `"25:00"`, which is outside `[00:00, 23:59]`; the stored
state changes and the non-sentinel item ends up with the out-of-range time. -/
theorem claim_C3_counterexample :
    (Schedule.getAll (Schedule.updateTime c3State "a" "25:00")).map
        (fun i => (i.id, i.time)) = [("a", "25:00"), (Schedule.END_ID, "09:00")] ∧
    isValidHHMM "25:00" = false ∧
    Schedule.updateTime c3State "a" "25:00" ≠ c3State := by
  refine ⟨by decide, by decide, ?_⟩
  intro h
  have hmaps := congrArg (fun c => (Schedule.getAll c).map fun i => i.time) h
  exact absurd hmaps (by decide)

/-- C3 (amended): `updateTime` validates only the two-digit `\d{2}:\d{2}`
shape: any other string is silently rejected leaving the stored state
unchanged; an accepted time leaves every non-sentinel item with a
shape-matching time, and when the accepted time is moreover within
`[00:00, 23:59]` and every stored non-sentinel item was within range, every
non-sentinel item remains within range. -/
theorem claim_C3_updateTime_validation (content : Json) (id t : String) :
    (isHHMMShape t = false → Schedule.updateTime content id t = content) ∧
    (isHHMMShape t = true →
      ∀ it ∈ Schedule.getAll (Schedule.updateTime content id t),
        it.id ≠ Schedule.END_ID → isHHMMShape it.time = true) ∧
    (isHHMMShape t = true → isValidHHMM t = true →
      (∀ it ∈ Schedule.getAll content,
        it.id ≠ Schedule.END_ID → isValidHHMM it.time = true) →
      ∀ it ∈ Schedule.getAll (Schedule.updateTime content id t),
        it.id ≠ Schedule.END_ID → isValidHHMM it.time = true) := by
  refine ⟨?_, ?_, ?_⟩
  · intro hbad
    unfold Schedule.updateTime
    rw [if_pos (by simp [hbad])]
  · intro hsh it hmem hne
    obtain ⟨endFinal, endT, heq, hid, htext, hshape, htime⟩ :=
      Schedule.updateTime_decomp content id t hsh
    have hA : ∀ a ∈ Schedule.stableSortByTime (((Schedule.getAll content).map fun i =>
        if i.id = id then { i with time := t } else i).filter
          fun i => i.id ≠ Schedule.END_ID), a.id ≠ Schedule.END_ID :=
      fun a ha => (Schedule.updateTime_sorted_mem content id t hsh a ha).1
    rw [heq, Schedule.getAll_encode_std _ endFinal hA hid] at hmem
    rcases List.mem_append.mp hmem with h | h
    · obtain ⟨x, _, hxit⟩ := List.mem_map.mp h
      rw [← hxit]
      exact Schedule.normStored_shape x
    · simp only [List.mem_singleton] at h
      subst h
      exact absurd (Schedule.endify_id _) hne
  · intro hsh hvalid hstore it hmem hne
    obtain ⟨endFinal, endT, heq, hid, htext, hshape, htime⟩ :=
      Schedule.updateTime_decomp content id t hsh
    have hA : ∀ a ∈ Schedule.stableSortByTime (((Schedule.getAll content).map fun i =>
        if i.id = id then { i with time := t } else i).filter
          fun i => i.id ≠ Schedule.END_ID), a.id ≠ Schedule.END_ID :=
      fun a ha => (Schedule.updateTime_sorted_mem content id t hsh a ha).1
    rw [heq, Schedule.getAll_encode_std _ endFinal hA hid] at hmem
    rcases List.mem_append.mp hmem with h | h
    · obtain ⟨x, hx, hxit⟩ := List.mem_map.mp h
      have hprops := Schedule.updateTime_sorted_mem content id t hsh x hx
      rw [← hxit, Schedule.normStored_of_shape x hprops.2.1]
      rcases hprops.2.2 with hteq | ⟨g, hg, hgid, hgt⟩
      · rw [hteq]; exact hvalid
      · rw [hgt]
        refine hstore g hg ?_
        rw [hgid]
        exact hprops.1
    · simp only [List.mem_singleton] at h
      subst h
      exact absurd (Schedule.endify_id _) hne

/-- Witness for C3: a rejected malformed time and an accepted in-range
update on the concrete schedule. -/
theorem claim_C3_updateTime_validation_witness :
    Schedule.updateTime c3State "a" "7:30" = c3State ∧
    (∀ it ∈ Schedule.getAll (Schedule.updateTime c3State "a" "07:30"),
      it.id ≠ Schedule.END_ID → isValidHHMM it.time = true) := by
  constructor
  · exact (claim_C3_updateTime_validation c3State "a" "7:30").1 (by decide)
  · exact (claim_C3_updateTime_validation c3State "a" "07:30").2.2
      (by decide) (by decide) (by decide)

/- ================================
   Claim C2 — sentinel gap invariant (corrected)
   ================================ -/

/-- C2 (counterexample): from the state `[a@08:00, b@08:05, End@09:00]` —
which has an activity, a sentinel, and a 55-minute gap — dragging `b` to
index 0 reflows to `[b@08:00, a@08:55, End@09:00]`, leaving only a 5-minute
gap: `moveToIndexWithReflow` never re-enforces the 15-minute minimum. -/
theorem claim_C2_counterexample :
    Schedule.lastActivityOf (Schedule.getAll (Schedule.moveToIndexWithReflow c2State "b" 0))
        = some ⟨"a", "Activity a", "08:55"⟩ ∧
    Schedule.sentinelOf (Schedule.getAll (Schedule.moveToIndexWithReflow c2State "b" 0))
        = some ⟨Schedule.END_ID, "End", "09:00"⟩ ∧
    diffForward "08:55" "09:00" = 5 ∧
    ¬((Schedule.MIN_GAP_MINUTES : Int) ≤ diffForward "08:55" "09:00") ∧
    Schedule.lastActivityOf (Schedule.getAll c2State) = some ⟨"b", "Activity b", "08:05"⟩ ∧
    Schedule.sentinelOf (Schedule.getAll c2State) = some ⟨Schedule.END_ID, "End", "09:00"⟩ ∧
    diffForward "08:05" "09:00" = 55 := by decide

/-- C2 (amended): for every schedule state containing at least one activity
and the sentinel, after a single `add` with non-empty trimmed text (and a
fresh non-reserved id) or a single `updateTime` with a shape-matching time,
the forward difference from the last activity's time to the sentinel's time
is at least 15 minutes.  (The original claim also asserted this for
`moveToIndexWithReflow`, which the counterexample refutes.) -/
theorem claim_C2_sentinel_gap (content : Json) (newId text time id t : String) :
    (((Schedule.getAll content).any fun i => i.id ≠ Schedule.END_ID) = true →
      ∀ endIt, (Schedule.getAll content).find? (fun i => i.id = Schedule.END_ID) = some endIt →
      jsTrim text ≠ "" → newId ≠ Schedule.END_ID →
      ∃ la se,
        Schedule.lastActivityOf (Schedule.getAll (Schedule.add content newId text time)) = some la ∧
        Schedule.sentinelOf (Schedule.getAll (Schedule.add content newId text time)) = some se ∧
        (Schedule.MIN_GAP_MINUTES : Int) ≤ diffForward la.time se.time) ∧
    (isHHMMShape t = true →
      ((Schedule.getAll content).any fun i => i.id ≠ Schedule.END_ID) = true →
      ∃ la se,
        Schedule.lastActivityOf (Schedule.getAll (Schedule.updateTime content id t)) = some la ∧
        Schedule.sentinelOf (Schedule.getAll (Schedule.updateTime content id t)) = some se ∧
        (Schedule.MIN_GAP_MINUTES : Int) ≤ diffForward la.time se.time) := by
  constructor
  · intro _ endIt hfind hne hnid
    have hrw := Schedule.add_with_end content newId text time endIt hne hfind
    have hEid : endIt.id = Schedule.END_ID := by simpa using List.find?_some hfind
    have hEshape : isHHMMShape endIt.time = true :=
      Schedule.getAll_times_shape content endIt (List.mem_of_find?_eq_some hfind)
    have hassoc :
        ((Schedule.getAll content).filter fun i => i.id ≠ Schedule.END_ID)
            ++ [(⟨newId, jsTrim text, endIt.time⟩ : Schedule.ScheduleItem),
                { endIt with time := addMinutes endIt.time 60 }] =
          (((Schedule.getAll content).filter fun i => i.id ≠ Schedule.END_ID)
            ++ [⟨newId, jsTrim text, endIt.time⟩])
            ++ [{ endIt with time := addMinutes endIt.time 60 }] := by simp
    rw [hassoc] at hrw
    have hAids : ∀ a ∈ ((Schedule.getAll content).filter fun i => i.id ≠ Schedule.END_ID)
        ++ [(⟨newId, jsTrim text, endIt.time⟩ : Schedule.ScheduleItem)],
        a.id ≠ Schedule.END_ID := by
      intro a ha
      rcases List.mem_append.mp ha with h | h
      · simpa using (List.mem_filter.mp h).2
      · simp only [List.mem_singleton] at h
        subst h
        exact hnid
    have hupid : ({ endIt with time := addMinutes endIt.time 60 } :
        Schedule.ScheduleItem).id = Schedule.END_ID := hEid
    have hgetAll := Schedule.getAll_encode_std _ _ hAids hupid
    rw [← hrw] at hgetAll
    have hnewShape : isHHMMShape
        ((⟨newId, jsTrim text, endIt.time⟩ : Schedule.ScheduleItem).time) = true := hEshape
    have hupShape : isHHMMShape
        (({ endIt with time := addMinutes endIt.time 60 } :
          Schedule.ScheduleItem).time) = true := isHHMMShape_addMinutes _ _
    refine ⟨⟨newId, jsTrim text, endIt.time⟩,
      Schedule.endify { endIt with time := addMinutes endIt.time 60 }, ?_, ?_, ?_⟩
    · unfold Schedule.lastActivityOf
      rw [hgetAll, Schedule.normStored_of_shape _ hupShape,
        Schedule.filter_activities_append _ _ ?hids (Schedule.endify_id _)]
      case hids =>
        intro a ha
        obtain ⟨x, hx, hxa⟩ := List.mem_map.mp ha
        rw [← hxa, Schedule.normStored_id]
        exact hAids x hx
      rw [List.map_append]
      simp only [List.map_cons, List.map_nil]
      rw [List.getLast?_concat, Schedule.normStored_of_shape _ hnewShape]
    · unfold Schedule.sentinelOf
      rw [hgetAll, Schedule.normStored_of_shape _ hupShape]
      refine Schedule.find?_end_append _ _ ?_ (Schedule.endify_id _)
      intro a ha
      obtain ⟨x, hx, hxa⟩ := List.mem_map.mp ha
      rw [← hxa, Schedule.normStored_id]
      exact hAids x hx
    · have hse : (Schedule.endify { endIt with time := addMinutes endIt.time 60 }).time
          = addMinutes endIt.time 60 :=
        Schedule.endify_time_of_shape _ hupShape
      rw [hse]
      show (Schedule.MIN_GAP_MINUTES : Int) ≤ diffForward endIt.time (addMinutes endIt.time 60)
      rw [diffForward_addMinutes_self endIt.time 60 (by decide) (by decide)]
      decide
  · intro hsh hasAct
    obtain ⟨endFinal, endT, heq, hid, htext, hshape, htime⟩ :=
      Schedule.updateTime_decomp content id t hsh
    have hA : ∀ a ∈ Schedule.stableSortByTime (((Schedule.getAll content).map fun i =>
        if i.id = id then { i with time := t } else i).filter
          fun i => i.id ≠ Schedule.END_ID), a.id ≠ Schedule.END_ID :=
      fun a ha => (Schedule.updateTime_sorted_mem content id t hsh a ha).1
    have hAshape : ∀ a ∈ Schedule.stableSortByTime (((Schedule.getAll content).map fun i =>
        if i.id = id then { i with time := t } else i).filter
          fun i => i.id ≠ Schedule.END_ID), isHHMMShape a.time = true :=
      fun a ha => (Schedule.updateTime_sorted_mem content id t hsh a ha).2.1
    have hgetAll : Schedule.getAll (Schedule.updateTime content id t) =
        Schedule.stableSortByTime (((Schedule.getAll content).map fun i =>
          if i.id = id then { i with time := t } else i).filter
            fun i => i.id ≠ Schedule.END_ID)
          ++ [Schedule.endify (Schedule.normStored endFinal)] := by
      rw [heq, Schedule.getAll_encode_std _ endFinal hA hid,
        Schedule.map_normStored_of_shape _ hAshape]
    have hsne : Schedule.stableSortByTime (((Schedule.getAll content).map fun i =>
        if i.id = id then { i with time := t } else i).filter
          fun i => i.id ≠ Schedule.END_ID) ≠ [] := by
      intro h0
      obtain ⟨g, hg, hgne⟩ := List.any_eq_true.mp hasAct
      have hgig : (if g.id = id then { g with time := t } else g) ∈
          (Schedule.getAll content).map fun i =>
            if i.id = id then { i with time := t } else i :=
        List.mem_map_of_mem _ hg
      have hfg : (if g.id = id then { g with time := t } else g) ∈
          ((Schedule.getAll content).map fun i =>
            if i.id = id then { i with time := t } else i).filter
              fun i => i.id ≠ Schedule.END_ID := by
        refine List.mem_filter.mpr ⟨hgig, ?_⟩
        by_cases hgi : g.id = id
        · rw [if_pos hgi]; exact hgne
        · rw [if_neg hgi]; exact hgne
      have := (Schedule.stableSortByTime_perm _).mem_iff.mpr hfg
      rw [h0] at this
      exact absurd this (by simp)
    cases hlast : (Schedule.stableSortByTime (((Schedule.getAll content).map fun i =>
        if i.id = id then { i with time := t } else i).filter
          fun i => i.id ≠ Schedule.END_ID)).getLast? with
    | none => exact absurd (List.getLast?_eq_none_iff.mp hlast) hsne
    | some last =>
        refine ⟨last, Schedule.endify (Schedule.normStored endFinal), ?_, ?_, ?_⟩
        · unfold Schedule.lastActivityOf
          rw [hgetAll, Schedule.filter_activities_append _ _ hA (Schedule.endify_id _)]
          exact hlast
        · unfold Schedule.sentinelOf
          rw [hgetAll]
          exact Schedule.find?_end_append _ _ hA (Schedule.endify_id _)
        · have hse : (Schedule.endify (Schedule.normStored endFinal)).time = endFinal.time := by
            rw [Schedule.normStored_of_shape _ hshape]
            exact Schedule.endify_time_of_shape _ hshape
          rw [hse, htime]
          exact Schedule.enforceEndAfterLast_gap endT _ last hlast

/-- Witness for C2 at the concrete schedule `c2State`: one `add` and one
`updateTime`, each leaving at least the 15-minute gap. -/
theorem claim_C2_sentinel_gap_witness :
    (∃ la se,
      Schedule.lastActivityOf (Schedule.getAll (Schedule.add c2State "n" "x" "07:00")) = some la ∧
      Schedule.sentinelOf (Schedule.getAll (Schedule.add c2State "n" "x" "07:00")) = some se ∧
      (Schedule.MIN_GAP_MINUTES : Int) ≤ diffForward la.time se.time) ∧
    (∃ la se,
      Schedule.lastActivityOf (Schedule.getAll (Schedule.updateTime c2State "b" "10:00")) = some la ∧
      Schedule.sentinelOf (Schedule.getAll (Schedule.updateTime c2State "b" "10:00")) = some se ∧
      (Schedule.MIN_GAP_MINUTES : Int) ≤ diffForward la.time se.time) := by
  constructor
  · exact (claim_C2_sentinel_gap c2State "n" "x" "07:00" "b" "10:00").1
      (by decide) ⟨Schedule.END_ID, "End", "09:00"⟩ (by decide) (by decide) (by decide)
  · exact (claim_C2_sentinel_gap c2State "n" "x" "07:00" "b" "10:00").2
      (by decide) (by decide)

/- ================================
   Lemmas: storage field and key operations
   ================================ -/

namespace Json

theorem getField_setField_self (fs : List (String × Json)) (f : String) (v : Json) :
    getField (setField fs f v) f = some v := by
  induction fs with
  | nil => simp [setField, getField]
  | cons kv rest ih =>
      obtain ⟨k, w⟩ := kv
      by_cases hk : k = f
      · subst hk
        simp [setField, getField]
      · simp [setField, getField, hk, ih]

theorem getField_setField_ne (fs : List (String × Json)) (f g : String) (v : Json)
    (h : g ≠ f) : getField (setField fs f v) g = getField fs g := by
  induction fs with
  | nil =>
      simp only [setField, getField]
      rw [if_neg (fun he => h he.symm)]
  | cons kv rest ih =>
      obtain ⟨k, w⟩ := kv
      by_cases hk : k = f
      · subst hk
        simp only [setField, if_pos rfl, getField]
        rw [if_neg (fun he => h he.symm), if_neg (fun he => h he.symm)]
      · simp only [setField, if_neg hk, getField]
        by_cases hg : k = g
        · rw [if_pos hg, if_pos hg]
        · rw [if_neg hg, if_neg hg, ih]

end Json

namespace Storage

theorem storeGet_storeSet_self (st : Store) (k : String) (v : Json) :
    storeGet (storeSet st k v) k = some v := by
  induction st with
  | nil => simp [storeSet, storeGet]
  | cons kv rest ih =>
      obtain ⟨k0, w⟩ := kv
      by_cases hk : k0 = k
      · subst hk
        simp [storeSet, storeGet]
      · simp [storeSet, storeGet, hk, ih]

theorem storeGet_storeSet_ne (st : Store) (k k' : String) (v : Json)
    (h : k' ≠ k) : storeGet (storeSet st k v) k' = storeGet st k' := by
  induction st with
  | nil =>
      simp only [storeSet, storeGet]
      rw [if_neg (fun he => h he.symm)]
  | cons kv rest ih =>
      obtain ⟨k0, w⟩ := kv
      by_cases hk : k0 = k
      · subst hk
        simp only [storeSet, if_pos rfl, storeGet]
        rw [if_neg (fun he => h he.symm), if_neg (fun he => h he.symm)]
      · simp only [storeSet, if_neg hk, storeGet]
        by_cases hg : k0 = k'
        · rw [if_pos hg, if_pos hg]
        · rw [if_neg hg, if_neg hg, ih]

theorem modifyAt_getElem?_self (xs : List Json) (i : Nat) (f : Json → Json) :
    (modifyAt xs i f)[i]? = xs[i]?.map f := by
  induction xs generalizing i with
  | nil => simp [modifyAt]
  | cons x rest ih =>
      cases i with
      | zero => simp [modifyAt]
      | succ n => simpa [modifyAt] using ih n

theorem findCompIndex_modifyAt (name : String) (xs : List Json) (i : Nat)
    (f : Json → Json) (hf : ∀ c, compMatches name (f c) = compMatches name c) :
    findCompIndex name (modifyAt xs i f) = findCompIndex name xs := by
  induction xs generalizing i with
  | nil => simp [modifyAt]
  | cons x rest ih =>
      cases i with
      | zero => simp [modifyAt, findCompIndex, hf x]
      | succ n => simp [modifyAt, findCompIndex, ih n]

theorem compMatches_contentSetter (name : String) (v : Json) (c : Json) :
    compMatches name (contentSetter v c) = compMatches name c := by
  cases c with
  | obj comp =>
      simp only [contentSetter, compMatches]
      rw [Json.getField_setField_ne comp "content" "name" v (by decide)]
  | null => rfl
  | bool b => rfl
  | num n => rfl
  | str s => rfl
  | arr xs => rfl

theorem compMatches_contentNormalizer (name : String) (c : Json) :
    compMatches name (contentNormalizer c) = compMatches name c := by
  cases c with
  | obj comp =>
      cases h : Json.getField comp "content" with
      | none =>
          simp only [contentNormalizer, h, compMatches]
          rw [Json.getField_setField_ne comp "content" "name" _ (by decide)]
      | some w =>
          cases w <;> simp only [contentNormalizer, h, compMatches] <;>
            rw [Json.getField_setField_ne comp "content" "name" _ (by decide)]
  | null => rfl
  | bool b => rfl
  | num n => rfl
  | str s => rfl
  | arr xs => rfl

theorem findCompIndex_found (name : String) (xs : List Json) (i : Nat)
    (h : findCompIndex name xs = some i) :
    ∃ comp, xs[i]? = some (.obj comp) ∧
      Json.getField comp "name" = some (.str name) := by
  induction xs generalizing i with
  | nil => exact absurd h (by simp [findCompIndex])
  | cons x rest ih =>
      unfold findCompIndex at h
      by_cases hm : compMatches name x
      · rw [if_pos hm] at h
        simp only [Option.some.injEq] at h
        subst h
        cases x with
        | obj comp =>
            simp only [compMatches] at hm
            refine ⟨comp, by simp, ?_⟩
            cases hn : Json.getField comp "name" with
            | none => rw [hn] at hm; exact absurd hm (by simp)
            | some w =>
                rw [hn] at hm
                cases w <;> simp_all
        | null => simp [compMatches] at hm
        | bool b => simp [compMatches] at hm
        | num n => simp [compMatches] at hm
        | str s => simp [compMatches] at hm
        | arr ys => simp [compMatches] at hm
      · rw [if_neg hm] at h
        cases hj : findCompIndex name rest with
        | none => rw [hj] at h; exact absurd h (by simp)
        | some j =>
            rw [hj] at h
            simp only [Option.map_some', Option.some.injEq] at h
            subst h
            simpa using ih j hj

theorem findCompIndex_append_found (name : String) (xs : List Json) (c : Json)
    (hnone : findCompIndex name xs = none) (hc : compMatches name c = true) :
    findCompIndex name (xs ++ [c]) = some xs.length := by
  induction xs with
  | nil => simp [findCompIndex, hc]
  | cons x rest ih =>
      rw [List.cons_append]
      simp only [findCompIndex] at hnone ⊢
      by_cases hm : compMatches name x
      · rw [if_pos hm] at hnone; exact absurd hnone (by simp)
      · rw [if_neg hm] at hnone ⊢
        cases hj : findCompIndex name rest with
        | some j => rw [hj] at hnone; exact absurd hnone (by simp)
        | none =>
            rw [ih hj]
            simp

end Storage

/- ================================
   Lemmas: ensureProjectComponent, key distinctness, projectList sync
   ================================ -/

namespace Storage

theorem newComponent_matches (name : String) (pos : Nat) :
    compMatches name (newComponent name pos) = true := by
  simp [newComponent, compMatches, Json.getField]

/-- The freshly pushed component entry already carries `content: []`, so the
content-default rule leaves it unchanged. -/
theorem contentNormalizer_newComponent (name : String) (pos : Nat) :
    contentNormalizer (newComponent name pos) = newComponent name pos := rfl

theorem contentNormalizer_obj (comp : List (String × Json)) :
    ∃ comp2, contentNormalizer (.obj comp) = .obj comp2 := by
  unfold contentNormalizer
  dsimp only
  cases Json.getField comp "content" with
  | none => exact ⟨_, rfl⟩
  | some w => cases w <;> exact ⟨_, rfl⟩

/-- On an object with a non-null `content` field, the content-default rule is
the identity. -/
theorem contentNormalizer_keep (comp : List (String × Json)) (v : Json)
    (h : Json.getField comp "content" = some v) (hv : v ≠ .null) :
    contentNormalizer (.obj comp) = .obj comp := by
  cases v with
  | null => exact absurd rfl hv
  | bool b => simp [contentNormalizer, h]
  | num n => simp [contentNormalizer, h]
  | str s => simp [contentNormalizer, h]
  | arr xs => simp [contentNormalizer, h]
  | obj o => simp [contentNormalizer, h]

/-- `ensureProjectComponent` on an object document always succeeds, returning
the document with its `components` array updated so that the entry at the
returned index is the first entry named `componentName`, and that entry is an
object. -/
theorem ensureProjectComponent_spec (fields : List (String × Json)) (name : String) :
    ∃ comps2 idx,
      ensureProjectComponent (.obj fields) name =
        .ok (.obj (Json.setField fields "components" (.arr comps2)), idx) ∧
      findCompIndex name comps2 = some idx ∧
      ∃ comp, comps2[idx]? = some (.obj comp) := by
  unfold ensureProjectComponent
  dsimp only
  cases hfi : findCompIndex name (match Json.getField fields "components" with
      | some (.arr xs) => xs
      | _ => []) with
  | some idx =>
      refine ⟨_, idx, rfl, ?_, ?_⟩
      · simp only [normalizeContentAt]
        rw [findCompIndex_modifyAt name _ idx contentNormalizer
          (fun c => compMatches_contentNormalizer name c)]
        exact hfi
      · obtain ⟨comp, hcomp, _⟩ := findCompIndex_found name _ idx hfi
        simp only [normalizeContentAt]
        rw [modifyAt_getElem?_self, hcomp]
        obtain ⟨comp2, hcomp2⟩ := contentNormalizer_obj comp
        exact ⟨comp2, by rw [Option.map_some', hcomp2]⟩
  | none =>
      set comps := (match Json.getField fields "components" with
        | some (.arr xs) => xs
        | _ => []) with hcomps
      refine ⟨_, comps.length, rfl, ?_, ?_⟩
      · simp only [normalizeContentAt]
        rw [findCompIndex_modifyAt name _ comps.length contentNormalizer
          (fun c => compMatches_contentNormalizer name c)]
        exact findCompIndex_append_found name comps _ hfi
          (newComponent_matches name (comps.length + 1))
      · simp only [normalizeContentAt]
        rw [modifyAt_getElem?_self, List.getElem?_concat_length, Option.map_some',
          contentNormalizer_newComponent]
        exact ⟨_, rfl⟩

/-- Keys written for project documents never collide with the two fixed keys. -/
theorem projectKey_ne_activeProject (s : String) :
    "project:" ++ s ≠ "activeProject" := by
  intro h
  have h2 := congrArg (fun t => t.data[7]?) h
  simp only [String.data_append] at h2
  rw [List.getElem?_append_left (by decide)] at h2
  exact absurd h2 (by decide)

theorem projectKey_ne_projectList (s : String) :
    "project:" ++ s ≠ "projectList" := by
  intro h
  have h2 := congrArg (fun t => t.data[7]?) h
  simp only [String.data_append] at h2
  rw [List.getElem?_append_left (by decide)] at h2
  exact absurd h2 (by decide)

/-- The `projectList` mirror writes only the `"projectList"` key. -/
theorem syncProjectList_storeGet (st : Store) (id : Json) (now : String)
    (k : String) (hk : k ≠ "projectList") :
    storeGet (syncProjectList st id now) k = storeGet st k := by
  unfold syncProjectList
  cases storeGet st "projectList" with
  | none => rfl
  | some pl =>
      dsimp only
      cases pl.getProp "projects" with
      | arr ps =>
          dsimp only
          cases syncProjectList.findCompIndexById id ps with
          | none => rfl
          | some i =>
              dsimp only
              exact storeGet_storeSet_ne _ _ _ _ hk
      | null => rfl
      | bool b => rfl
      | num n => rfl
      | str s => rfl
      | obj fs => rfl

end Storage

/- ================================
   Claim C7 — behavior without an active project
   ================================ -/

/-- C7: with no truthy active project id, or no stored document under the
active project's key, `getComponentContent` returns `null` (and, being a pure
read, writes nothing) while `setComponentContent` throws before performing
any write, leaving storage unchanged. -/
theorem claim_C7_no_active_project (st : Storage.Store) (name : String)
    (content : Json) (now : String) (hname : name ≠ "")
    (h : Json.truthy (Storage.getActiveProjectId st) = false ∨
         Storage.storeGet st (Storage.keyForProject (Storage.getActiveProjectId st)) = none) :
    Storage.getComponentContent st name = .ok .null ∧
    Storage.setComponentContent st name content now =
      .error "[storage] cannot write: no active project" := by
  have hctx : Storage.readActiveProjectModelOrNull st = none := by
    unfold Storage.readActiveProjectModelOrNull
    dsimp only
    by_cases ht : Json.truthy (Storage.getActiveProjectId st)
    · rw [if_neg (by simp [ht])]
      rcases h with h | h
      · rw [ht] at h
        exact absurd h (by simp)
      · rw [h]
    · rw [if_pos (by simp [ht])]
  constructor
  · unfold Storage.getComponentContent
    rw [if_neg hname, hctx]
  · unfold Storage.setComponentContent
    rw [if_neg hname, hctx]

/-- Witness for C7 on the empty storage. -/
theorem claim_C7_no_active_project_witness :
    Storage.getComponentContent [] "notes" = .ok .null ∧
    Storage.setComponentContent [] "notes" (.str "x") "T0" =
      .error "[storage] cannot write: no active project" :=
  claim_C7_no_active_project [] "notes" (.str "x") "T0" (by decide) (Or.inl rfl)

/- ================================
   Claim C6 — component content round-trip (corrected)
   ================================ -/

/-- C6 (counterexample): storing `null` does not round-trip — the read path's
`comp.content == null` default rewrites it to `[]`, so `get` after
`set(name, null)` returns `[]`, which is not deep-equal to `null`. -/
theorem claim_C6_counterexample :
    (Storage.setComponentContent c6Store "notes" Json.null "T0").bind
        (fun st2 => Storage.getComponentContent st2 "notes") = .ok (.arr []) ∧
    Json.arr [] ≠ Json.null := by
  refine ⟨rfl, ?_⟩
  intro h
  exact Json.noConfusion h

/-- C6 (amended): for every non-`null` JSON content value `X`, when the
active pointer names a project id and that project's document is a stored
JSON object, `setComponentContent(name, X)` succeeds and a following
`getComponentContent(name)` returns a value deep-equal to `X`.  (`null`
itself is rewritten to `[]` by the read path's content default, refuting the
unrestricted claim.) -/
theorem claim_C6_roundtrip (st : Storage.Store) (name s now : String)
    (apf dfs : List (String × Json)) (X : Json)
    (hname : name ≠ "") (hs : s ≠ "")
    (hap : Storage.storeGet st "activeProject" = some (.obj apf))
    (hid : Json.getField apf "id" = some (.str s))
    (hdoc : Storage.storeGet st ("project:" ++ s) = some (.obj dfs))
    (hX : X ≠ Json.null) :
    ∃ st2, Storage.setComponentContent st name X now = .ok st2 ∧
      Storage.getComponentContent st2 name = .ok X := by
  obtain ⟨comps2, idx, hens, hfind2, comp, hcompidx⟩ :=
    Storage.ensureProjectComponent_spec dfs name
  have hgid : Storage.getActiveProjectId st = .str s := by
    unfold Storage.getActiveProjectId Storage.readActiveProject
    rw [hap]
    unfold Json.getProp
    dsimp only
    rw [hid]
    rfl
  have hkey : Storage.keyForProject (Json.str s) = "project:" ++ s := rfl
  have hctx : Storage.readActiveProjectModelOrNull st = some (.str s, .obj dfs) := by
    unfold Storage.readActiveProjectModelOrNull
    dsimp only
    rw [hgid, if_neg (by simp [Json.truthy, hs]), hkey, hdoc]
  -- names for the written pieces
  have hfs2 : True := trivial
  -- the written components array and document fields
  have hsetc : Storage.setContentAt
      (.obj (Json.setField dfs "components" (.arr comps2))) idx (Storage.deepClone X) =
      .obj (Json.setField (Json.setField dfs "components" (.arr comps2)) "components"
        (.arr (Storage.modifyAt comps2 idx (Storage.contentSetter X)))) := by
    unfold Storage.setContentAt
    dsimp only
    rw [Json.getField_setField_self]
    rfl
  have hset : Storage.setComponentContent st name X now =
      .ok (Storage.syncProjectList
        (Storage.storeSet st ("project:" ++ s)
          (.obj (Json.setField
            (Json.setField (Json.setField dfs "components" (.arr comps2)) "components"
              (.arr (Storage.modifyAt comps2 idx (Storage.contentSetter X))))
            "updatedAt" (.str now))))
        (.str s) now) := by
    unfold Storage.setComponentContent
    rw [if_neg hname, hctx]
    dsimp only
    rw [hens]
    dsimp only
    rw [hsetc]
    rfl
  refine ⟨_, hset, ?_⟩
  -- reading back
  have hga2 : Storage.storeGet (Storage.syncProjectList
      (Storage.storeSet st ("project:" ++ s)
        (.obj (Json.setField
          (Json.setField (Json.setField dfs "components" (.arr comps2)) "components"
            (.arr (Storage.modifyAt comps2 idx (Storage.contentSetter X))))
          "updatedAt" (.str now))))
      (.str s) now) "activeProject" = some (.obj apf) := by
    rw [Storage.syncProjectList_storeGet _ _ _ _ (by decide)]
    rw [Storage.storeGet_storeSet_ne _ _ _ _
      (Ne.symm (Storage.projectKey_ne_activeProject s))]
    exact hap
  have hdoc2 : Storage.storeGet (Storage.syncProjectList
      (Storage.storeSet st ("project:" ++ s)
        (.obj (Json.setField
          (Json.setField (Json.setField dfs "components" (.arr comps2)) "components"
            (.arr (Storage.modifyAt comps2 idx (Storage.contentSetter X))))
          "updatedAt" (.str now))))
      (.str s) now) ("project:" ++ s) =
      some (.obj (Json.setField
        (Json.setField (Json.setField dfs "components" (.arr comps2)) "components"
          (.arr (Storage.modifyAt comps2 idx (Storage.contentSetter X))))
        "updatedAt" (.str now))) := by
    rw [Storage.syncProjectList_storeGet _ _ _ _ (Storage.projectKey_ne_projectList s)]
    exact Storage.storeGet_storeSet_self _ _ _
  have hgid2 : Storage.getActiveProjectId (Storage.syncProjectList
      (Storage.storeSet st ("project:" ++ s)
        (.obj (Json.setField
          (Json.setField (Json.setField dfs "components" (.arr comps2)) "components"
            (.arr (Storage.modifyAt comps2 idx (Storage.contentSetter X))))
          "updatedAt" (.str now))))
      (.str s) now) = .str s := by
    unfold Storage.getActiveProjectId Storage.readActiveProject
    rw [hga2]
    unfold Json.getProp
    dsimp only
    rw [hid]
    rfl
  have hctx2 : Storage.readActiveProjectModelOrNull (Storage.syncProjectList
      (Storage.storeSet st ("project:" ++ s)
        (.obj (Json.setField
          (Json.setField (Json.setField dfs "components" (.arr comps2)) "components"
            (.arr (Storage.modifyAt comps2 idx (Storage.contentSetter X))))
          "updatedAt" (.str now))))
      (.str s) now) = some (.str s,
        .obj (Json.setField
          (Json.setField (Json.setField dfs "components" (.arr comps2)) "components"
            (.arr (Storage.modifyAt comps2 idx (Storage.contentSetter X))))
          "updatedAt" (.str now))) := by
    unfold Storage.readActiveProjectModelOrNull
    dsimp only
    rw [hgid2, if_neg (by simp [Json.truthy, hs]), hkey, hdoc2]
  have hcomps4 : Json.getField (Json.setField
      (Json.setField (Json.setField dfs "components" (.arr comps2)) "components"
        (.arr (Storage.modifyAt comps2 idx (Storage.contentSetter X))))
      "updatedAt" (.str now)) "components" =
      some (.arr (Storage.modifyAt comps2 idx (Storage.contentSetter X))) := by
    rw [Json.getField_setField_ne _ _ _ _ (by decide)]
    exact Json.getField_setField_self _ _ _
  have hfindxs2 : Storage.findCompIndex name
      (Storage.modifyAt comps2 idx (Storage.contentSetter X)) = some idx := by
    rw [Storage.findCompIndex_modifyAt name _ idx _
      (fun c => Storage.compMatches_contentSetter name X c)]
    exact hfind2
  have hens2 : Storage.ensureProjectComponent
      (.obj (Json.setField
        (Json.setField (Json.setField dfs "components" (.arr comps2)) "components"
          (.arr (Storage.modifyAt comps2 idx (Storage.contentSetter X))))
        "updatedAt" (.str now))) name =
      .ok (.obj (Json.setField
        (Json.setField
          (Json.setField (Json.setField dfs "components" (.arr comps2)) "components"
            (.arr (Storage.modifyAt comps2 idx (Storage.contentSetter X))))
          "updatedAt" (.str now)) "components"
        (.arr (Storage.normalizeContentAt
          (Storage.modifyAt comps2 idx (Storage.contentSetter X)) idx))), idx) := by
    unfold Storage.ensureProjectComponent
    dsimp only
    rw [hcomps4]
    dsimp only
    rw [hfindxs2]
  have hxs2idx : (Storage.modifyAt comps2 idx (Storage.contentSetter X))[idx]? =
      some (.obj (Json.setField comp "content" X)) := by
    rw [Storage.modifyAt_getElem?_self, hcompidx]
    rfl
  have hnormidx : (Storage.normalizeContentAt
      (Storage.modifyAt comps2 idx (Storage.contentSetter X)) idx)[idx]? =
      some (.obj (Json.setField comp "content" X)) := by
    simp only [Storage.normalizeContentAt]
    rw [Storage.modifyAt_getElem?_self, hxs2idx, Option.map_some']
    rw [Storage.contentNormalizer_keep _ X (Json.getField_setField_self _ _ _) hX]
  have hgetc : Storage.getContentAt
      (.obj (Json.setField
        (Json.setField
          (Json.setField (Json.setField dfs "components" (.arr comps2)) "components"
            (.arr (Storage.modifyAt comps2 idx (Storage.contentSetter X))))
          "updatedAt" (.str now)) "components"
        (.arr (Storage.normalizeContentAt
          (Storage.modifyAt comps2 idx (Storage.contentSetter X)) idx)))) idx = X := by
    unfold Storage.getContentAt
    dsimp only
    rw [Json.getField_setField_self]
    dsimp only
    rw [hnormidx]
    dsimp only
    rw [Json.getField_setField_self]
    rfl
  unfold Storage.getComponentContent
  rw [if_neg hname, hctx2]
  dsimp only
  rw [hens2]
  dsimp only
  rw [hgetc]
  rfl

/-- Witness for C6: storing a concrete string list under an active project
and reading it back. -/
theorem claim_C6_roundtrip_witness :
    ∃ st2, Storage.setComponentContent c6Store "notes"
        (.arr [.str "alpha", .str "beta"]) "T1" = .ok st2 ∧
      Storage.getComponentContent st2 "notes" = .ok (.arr [.str "alpha", .str "beta"]) := by
  refine claim_C6_roundtrip c6Store "notes" "p1" "T1"
    [("id", Json.str "p1")]
    [("title", Json.str "Plan"), ("components", Json.arr [])]
    (.arr [.str "alpha", .str "beta"])
    (by decide) (by decide) rfl rfl rfl ?_
  intro h
  exact Json.noConfusion h
